import Mathlib

/-
Verification of the cuda_buddy repository: a binary buddy allocator
(`allocator.cpp` / `allocator.hpp`) and a two-tier pool over it
(`pool.cpp` / `pool.hpp`).

The C++ code is shallowly embedded:
  * machine integers (`size_t`) are `Nat`, with an explicit `% 2^64`
    exactly where the C++ arithmetic can wrap (`next_pow_of_2`,
    the `size += alignment - 1` inflation);
  * the 2-bit-per-node `tree` byte array is modelled as a total map
    `Nat → node_status`; `get_node_status`/`set_node_status` are the
    pointwise read/update that the source's bit-field accessors implement;
  * the CUDA data pointer is modelled as a base address `data : Nat`
    (null = 0); returned pointers are addresses;
  * the loops of `alloc`, `free` and `combine` are embedded as
    fuel-indexed structural recursions; the fuel passed by the top-level
    entry points (`max_level + 2`, resp. `index + 1`) dominates the
    loop's iteration count, so the embedded functions compute exactly
    what the loops compute.
-/

namespace CudaBuddy

inductive node_status : Type
  | unused
  | used
  | used_with_alignment
  | splited
deriving DecidableEq, Repr

open node_status

/-- modulus of the C++ `size_t` arithmetic (64-bit). -/
def size_t_mod : Nat := 2 ^ 64

/-- the per-call cap used in `allocator::alloc`'s `size > UINT32_MAX` check. -/
def UINT32_MAX : Nat := 2 ^ 32 - 1

/-- `is_pow_of_2` from allocator.cpp: `!(x & (x - 1))`.
(For `x = 0` the C++ subtraction wraps; the result is `true` there,
and `0 - 1 = 0` in `Nat` gives the same result.) -/
def is_pow_of_2 (x : Nat) : Bool := (x &&& (x - 1)) == 0

/-- `next_pow_of_2` from allocator.cpp: the or-shift cascade on `size_t`,
with the final `+ 1` wrapping mod `2^64`.  The inputs it receives are
already `< 2^64`, and `|||`/`>>>` cannot grow them, so only the `+ 1`
needs the explicit modulus. -/
def next_pow_of_2 (x : Nat) : Nat :=
  if is_pow_of_2 x then x
  else
    let x1 := x ||| (x >>> 1)
    let x2 := x1 ||| (x1 >>> 2)
    let x3 := x2 ||| (x2 >>> 4)
    let x4 := x3 ||| (x3 >>> 8)
    let x5 := x4 ||| (x4 >>> 16)
    (x5 + 1) % size_t_mod

/-- `_index_offset` from allocator.cpp:
`((index + 1) - (1ULL << level)) << (max_level - level)`.
In every call the walk makes, `index + 1 ≥ 2^level` and
`level ≤ max_level`, so the `Nat` truncated subtractions agree with the
C++ unsigned arithmetic. -/
def _index_offset (index level max_level : Nat) : Nat :=
  ((index + 1) - (1 <<< level)) <<< (max_level - level)

def left_child_index (index : Nat) : Nat := index * 2 + 1
def right_child_index (index : Nat) : Nat := index * 2 + 2
def parent_index (index : Nat) : Nat := (index + 1) / 2 - 1
/-- `sibling_index` from allocator.hpp: `index + (index & 1)`.
Note that for an even `index` this is `index` itself. -/
def sibling_index (index : Nat) : Nat := index + (index &&& 1)

/-- the state of one arena (`class allocator`): its exponent, the base
address of the data region, the node-status tree and `used_size`. -/
structure allocator where
  max_level : Nat
  data : Nat
  tree : Nat → node_status
  used_size : Nat

/-- a freshly constructed arena: the `tree` pages are zero-initialized,
i.e. every node is `unused`, and `used_size` starts at 0. -/
def mk_allocator (max_level data : Nat) : allocator :=
  ⟨max_level, data, fun _ => unused, 0⟩

def allocator.get_node_status (s : allocator) (index : Nat) : node_status :=
  s.tree index

def allocator.set_node_status (s : allocator) (index : Nat) (st : node_status) :
    allocator :=
  { s with tree := fun j => if j = index then st else s.tree j }

/-- `allocator::full`: true iff `used_size == 0` (i.e. the arena is empty;
the source keeps the inverted name). -/
def allocator.full (s : allocator) : Bool := s.used_size == 0

/-- `allocator::in_buddy`: `data ≤ ptr < data + 2^max_level`. -/
def allocator.in_buddy (s : allocator) (ptr : Nat) : Bool :=
  decide (s.data ≤ ptr) && decide (ptr < s.data + (1 <<< s.max_level))

/-- first loop of `allocator::combine`: walk upward while the current
node is nonzero and the status of `sibling_index index` is `unused`;
returns the index where the walk stops.  `parent_index` strictly
decreases a positive index, so fuel `index + 1` never runs out. -/
def combine_up (t : Nat → node_status) : Nat → Nat → Nat
  | 0, index => index
  | fuel + 1, index =>
    if index = 0 then index
    else if t (sibling_index index) ≠ unused then index
    else combine_up t fuel (parent_index index)

/-- second loop of `allocator::combine`: mark every strict ancestor of
`index` as `splited`. -/
def mark_parents : Nat → allocator → Nat → allocator
  | 0, s, _ => s
  | fuel + 1, s, index =>
    if index = 0 then s
    else
      let p := parent_index index
      mark_parents fuel (s.set_node_status p splited) p

/-- `allocator::combine`. -/
def allocator.combine (s : allocator) (index : Nat) : allocator :=
  let j := combine_up s.tree (index + 1) index
  mark_parents (j + 1) (s.set_node_status j unused) j

/-- descent loop of `allocator::free` (`while (level <= max_level)`).
The iteration count is at most `max_level + 2`, which is the fuel the
entry point passes, so fuel never runs out before the loop condition fails. -/
def free_walk (offset : Nat) :
    Nat → allocator → Nat → Nat → Nat → Nat → Bool × allocator
  | 0, s, _, _, _, _ => (false, s)
  | fuel + 1, s, left, length, index, level =>
    if s.max_level < level then (false, s)
    else
      match s.tree index with
      | used_with_alignment =>
        if offset = _index_offset index level s.max_level then (false, s)
        else
          (true, allocator.combine
            { s with used_size := s.used_size - (1 <<< (s.max_level - level)) }
            index)
      | used =>
        if offset ≠ _index_offset index level s.max_level then (false, s)
        else
          (true, allocator.combine
            { s with used_size := s.used_size - (1 <<< (s.max_level - level)) }
            index)
      | unused => (false, s)
      | splited =>
        let length' := length / 2
        let level' := level + 1
        if offset < left + length' then
          free_walk offset fuel s left length' (left_child_index index) level'
        else
          free_walk offset fuel s (left + length') length'
            (right_child_index index) level'

/-- `allocator::free`.  A null pointer (address 0) returns `true` with no
effect; a pointer outside `[data, data + 2^max_level)` returns `false`
with no effect; otherwise the tree is descended by offset. -/
def allocator.free (s : allocator) (ptr : Nat) : Bool × allocator :=
  if ptr = 0 then (true, s)
  else if ¬ (s.in_buddy ptr = true) then (false, s)
  else free_walk (ptr - s.data) (s.max_level + 2) s 0 (1 <<< s.max_level) 0 0

/-- the search loop of `allocator::alloc` (lines 154-210), embedded as
the depth-first traversal that the explicit-backtracking loop performs:
at a block of exactly the requested size claim it when `unused`;
at a larger `unused` block split it (three status writes) and descend
left; at a larger `splited` block try the left child and, if that
fails, the right child with the state the failed attempt returned
(the imperative code moves to the right sibling on backtracking).
Besides the returned pointer, the result records the claimed node's
index and level; `allocator.alloc` projects them away. -/
def alloc_walk (size alignment : Nat) :
    Nat → allocator → Nat → Nat → Nat → Option (Nat × Nat × Nat) × allocator
  | 0, s, _, _, _ => (none, s)
  | fuel + 1, s, index, level, length =>
    if size = length then
      if s.tree index = unused then
        let s1 := { s with used_size := s.used_size + size }
        let ptr := s1.data + _index_offset index level s1.max_level
        if alignment > 1 ∧ ptr % alignment ≠ 0 then
          (some (ptr + (alignment - ptr % alignment), index, level),
            s1.set_node_status index used_with_alignment)
        else
          (some (ptr, index, level), s1.set_node_status index used)
      else (none, s)
    else
      match s.tree index with
      | used => (none, s)
      | used_with_alignment => (none, s)
      | unused =>
        let s1 := ((s.set_node_status index splited).set_node_status
            (left_child_index index) unused).set_node_status
            (right_child_index index) unused
        match alloc_walk size alignment fuel s1 (left_child_index index)
            (level + 1) (length / 2) with
        | (some r, s2) => (some r, s2)
        | (none, s2) =>
          alloc_walk size alignment fuel s2 (right_child_index index)
            (level + 1) (length / 2)
      | splited =>
        match alloc_walk size alignment fuel s (left_child_index index)
            (level + 1) (length / 2) with
        | (some r, s2) => (some r, s2)
        | (none, s2) =>
          alloc_walk size alignment fuel s2 (right_child_index index)
            (level + 1) (length / 2)

/-- `allocator::alloc(size, alignment)` with the claimed node's index and
level kept in the result for specification purposes. -/
def allocator.alloc_core (s : allocator) (size alignment : Nat) :
    Option (Nat × Nat × Nat) × allocator :=
  let size1 := if size = 0 then 1 else size
  let size2 :=
    if alignment > 1 then (size1 + alignment - 1) % size_t_mod else size1
  let size3 := next_pow_of_2 size2
  if size3 > UINT32_MAX then (none, s)
  else
    let length := 1 <<< s.max_level
    if size3 > length then (none, s)
    else alloc_walk size3 alignment (s.max_level + 2) s 0 0 length

/-- `allocator::alloc(size, alignment)`: the source's return value. -/
def allocator.alloc (s : allocator) (size alignment : Nat) :
    Option Nat × allocator :=
  let r := s.alloc_core size alignment
  (r.1.map (fun q => q.1), r.2)

/-- the `alloc(size)` overload: `alloc(size, 1)`. -/
def allocator.alloc_one (s : allocator) (size : Nat) : Option Nat × allocator :=
  s.alloc size 1

/-! ## The pool tier (`pool.cpp` / `pool.hpp`) -/

/-- `pool::buddy_block_level` (ARENA_LEVEL). -/
def buddy_block_level : Nat := 28

/-- `pool::global_pool_type`: the per-location reservoir. -/
structure global_pool_type where
  pool : List allocator
  alloced_block_num : Nat

/-- `global_pool_type::add_block`: `pool.push_back`. -/
def global_pool_type.add_block (g : global_pool_type) (b : allocator) :
    global_pool_type :=
  { g with pool := g.pool ++ [b] }

/-- `global_pool_type::clear`: `pool.clear()`.  Note it does not touch
`alloced_block_num`. -/
def global_pool_type.clear (g : global_pool_type) : global_pool_type :=
  { g with pool := [] }

/-- `pool::release_global_pool(gpu_no)`: `get_global_pool(gpu_no).clear()`. -/
def release_global_pool (g : global_pool_type) : global_pool_type := g.clear

/-- `pool::set_device_pool_size` / `set_host_pool_size`: the published
exponent is `max(buddy_block_level, max_level)`. -/
def set_pool_size (max_level : Nat) : Nat := max buddy_block_level max_level

/-- `pool::get_block`: if the reservoir's free list is empty, construct a
new arena only when `alloced_block_num < 2^(max_level - buddy_block_level)`
and charge it; otherwise pop the front of the free list.  `new_base`
stands for the data address the driver returns for a fresh arena. -/
def pool_get_block (g : global_pool_type) (max_level : Nat) (new_base : Nat) :
    Option allocator × global_pool_type :=
  match g.pool with
  | [] =>
    let max_block_num := 1 <<< (max_level - buddy_block_level)
    if g.alloced_block_num ≥ max_block_num then (none, g)
    else (some (mk_allocator buddy_block_level new_base),
      { g with alloced_block_num := g.alloced_block_num + 1 })
  | b :: rest => (some b, { g with pool := rest })

/-- the reservoir operations a location's `global_pool_type` undergoes
during an execution: `pool::get_block` calls (each with the driver
address a fresh arena would get), `add_block` calls from pool release,
and `clear` from `release_global_pool`. -/
inductive pool_event : Type
  | get (new_base : Nat)
  | put (b : allocator)
  | clear

/-- run a sequence of reservoir operations at a fixed configured
exponent `max_level`. -/
def run_events (max_level : Nat) : List pool_event → global_pool_type →
    global_pool_type
  | [], g => g
  | e :: es, g =>
    run_events max_level es
      (match e with
       | .get nb => (pool_get_block g max_level nb).2
       | .put b => g.add_block b
       | .clear => g.clear)

/-- `pool::free`: try `allocator->free(ptr)` on each local arena in
order; return `true` as soon as one accepts (the arenas' updated states
are kept). -/
def pool_free : List allocator → Nat → Bool × List allocator
  | [], _ => (false, [])
  | a :: rest, p =>
    match a.free p with
    | (true, a') => (true, a' :: rest)
    | (false, a') =>
      let r := pool_free rest p
      (r.1, a' :: r.2)

/-! ## Derived definitions used by the development -/

/-- a level-3 arena whose whole range is taken by one size-8 block. -/
def full_arena : allocator := ((mk_allocator 3 8).alloc_core 8 1).2

/-- the size a call `alloc(size, alignment)` actually searches for:
`size` clamped to 1, inflated by `alignment - 1` when `alignment > 1`
(in `size_t` arithmetic), then rounded up by `next_pow_of_2`. -/
def rounded_size (size alignment : Nat) : Nat :=
  next_pow_of_2
    (if alignment > 1 then ((if size = 0 then 1 else size) + alignment - 1) % size_t_mod
     else if size = 0 then 1 else size)

/-- the index range of depth-`l` nodes in breadth-first order. -/
def valid_node (i l : Nat) : Prop := 2 ^ l ≤ i + 1 ∧ i + 1 < 2 ^ (l + 1)

instance (i l : Nat) : Decidable (valid_node i l) := by
  unfold valid_node
  infer_instance

/-- Modelled on the spec's wording for determinism: the offsets at which
a free block of the requested size is available, enumerated in the
walk's left-leaning order.  A `used`/`used_with_alignment` node offers
nothing, an `unused` node offers (at least) its own base offset, and a
`splited` node offers its left subtree's offsets before its right
subtree's. -/
def free_offsets (L : Nat) (t : Nat → node_status) (size : Nat) :
    Nat → Nat → Nat → Nat → List Nat
  | 0, _, _, _ => []
  | fuel + 1, i, l, len =>
    if size = len then
      if t i = unused then [_index_offset i l L] else []
    else
      match t i with
      | used => []
      | used_with_alignment => []
      | unused => [_index_offset i l L]
      | splited =>
        free_offsets L t size fuel (left_child_index i) (l + 1) (len / 2) ++
        free_offsets L t size fuel (right_child_index i) (l + 1) (len / 2)

/-- `anc a x`: node `a` is `x` or an ancestor of `x` (repeatedly taking
`parent_index` from `x` reaches `a`). -/
def anc (a x : Nat) : Prop := ∃ d, (x + 1) / 2 ^ d = a + 1

/-- run a list of `alloc(size, alignment)` calls, collecting the non-null
returned pointers in call order. -/
def run_allocs : allocator → List (Nat × Nat) → allocator × List Nat
  | s, [] => (s, [])
  | s, c :: cs =>
    let r := s.alloc c.1 c.2
    let rest := run_allocs r.2 cs
    match r.1 with
    | some p => (rest.1, p :: rest.2)
    | none => (rest.1, rest.2)

/-- run a list of `free(ptr)` calls; the boolean records whether every
call returned `true`. -/
def run_frees : allocator → List Nat → allocator × Bool
  | s, [] => (s, true)
  | s, p :: ps =>
    let r := s.free p
    let rest := run_frees r.2 ps
    (rest.1, r.1 && rest.2)

/-- a live allocation: the claimed node's index, its depth, and the
pointer that `alloc` returned for it. -/
def entry_ok (s : allocator) (e : Nat × Nat × Nat) : Prop :=
  valid_node e.1 e.2.1 ∧ e.2.1 ≤ s.max_level ∧
  ((s.tree e.1 = node_status.used ∧
      e.2.2 = s.data + _index_offset e.1 e.2.1 s.max_level) ∨
   (s.tree e.1 = node_status.used_with_alignment ∧
      s.data + _index_offset e.1 e.2.1 s.max_level < e.2.2 ∧
      e.2.2 < s.data + _index_offset e.1 e.2.1 s.max_level
        + 2 ^ (s.max_level - e.2.1))) ∧
  (∀ a2, anc a2 e.1 → a2 ≠ e.1 → s.tree a2 = node_status.splited)

/-- the arena invariant tied to the multiset of live allocations:
each is a live tagged node with `splited` ancestors, distinct live
nodes head disjoint subtrees, and `used_size` is the sum of the live
block sizes. -/
def entries_ok (s : allocator) (E : List (Nat × Nat × Nat)) : Prop :=
  (∀ e ∈ E, entry_ok s e) ∧
  E.Pairwise (fun e1 e2 => ¬ anc e1.1 e2.1 ∧ ¬ anc e2.1 e1.1) ∧
  s.used_size = (E.map (fun e => 2 ^ (s.max_level - e.2.1))).sum

/-- the arena state reached on a level-1 arena at base address 8 by the
call sequence `alloc(1) = 8` (left leaf, node 1), `alloc(1) = 9`
(right leaf, node 2), `free(8)`, `free(9)`. -/
def combine_trace : allocator :=
  (((((mk_allocator 1 8).alloc_core 1 1).2.alloc_core 1 1).2.free 8).2.free 9).2

/-- a reservoir holding one cached (empty) arena, with one arena charged. -/
def clear_cex_pool : global_pool_type :=
  ⟨[mk_allocator buddy_block_level 1], 1⟩

/-! ## Arithmetic facts about `is_pow_of_2` and `next_pow_of_2` -/

/-- one stage of the or-shift cascade in `next_pow_of_2`. -/
def or_shift (s k : Nat) : Nat := s ||| (s >>> k)

/-- the five-stage cascade of `next_pow_of_2`. -/
def smear (x : Nat) : Nat :=
  or_shift (or_shift (or_shift (or_shift (or_shift x 1) 2) 4) 8) 16

theorem next_pow_of_2_eq_smear (x : Nat) (h : is_pow_of_2 x = false) :
    next_pow_of_2 x = (smear x + 1) % size_t_mod := by
  simp [next_pow_of_2, h, smear, or_shift]

theorem or_shift_cov_true (x s w : Nat)
    (H : ∀ j d, d < w → x.testBit (j + d) = true → s.testBit j = true) :
    ∀ j d, d < 2 * w → x.testBit (j + d) = true →
      (or_shift s w).testBit j = true := by
  intro j d hd hx
  rw [or_shift, Nat.testBit_lor]
  by_cases h : d < w
  · rw [H j d h hx]
    simp
  · have hs := H (j + w) (d - w) (by omega)
      (by rw [show j + w + (d - w) = j + d by omega]; exact hx)
    rw [Nat.testBit_shiftRight, show w + j = j + w by omega, hs]
    simp

theorem or_shift_cov_false (x s w : Nat)
    (H : ∀ j, (∀ d, d < w → x.testBit (j + d) = false) → s.testBit j = false) :
    ∀ j, (∀ d, d < 2 * w → x.testBit (j + d) = false) →
      (or_shift s w).testBit j = false := by
  intro j hj
  have h1 := H j (fun d hd => hj d (by omega))
  have h2 := H (j + w) (fun d hd => by
    rw [show j + w + d = j + (w + d) by omega]; exact hj (w + d) (by omega))
  rw [or_shift, Nat.testBit_lor, h1, Nat.testBit_shiftRight,
    show w + j = j + w by omega, h2]
  simp

theorem smear_testBit_true (x j d : Nat) (hd : d < 32)
    (h : x.testBit (j + d) = true) : (smear x).testBit j = true := by
  have h1 := or_shift_cov_true x x 1
    (fun j d hd hx => by rwa [show j + d = j by omega] at hx)
  have h2 := or_shift_cov_true x _ 2 h1
  have h4 := or_shift_cov_true x _ 4 h2
  have h8 := or_shift_cov_true x _ 8 h4
  have h16 := or_shift_cov_true x _ 16 h8
  exact h16 j d (by omega) h

theorem smear_testBit_false (x j : Nat)
    (h : ∀ d, d < 32 → x.testBit (j + d) = false) :
    (smear x).testBit j = false := by
  have h1 := or_shift_cov_false x x 1
    (fun j hj => by have := hj 0 (by omega); rwa [Nat.add_zero] at this)
  have h2 := or_shift_cov_false x _ 2 h1
  have h4 := or_shift_cov_false x _ 4 h2
  have h8 := or_shift_cov_false x _ 8 h4
  have h16 := or_shift_cov_false x _ 16 h8
  exact h16 j h

/-- a number in `[2^m, 2^(m+1))` has bit `m` set. -/
theorem testBit_of_le_of_lt (y m : Nat) (hle : 2 ^ m ≤ y)
    (hlt : y < 2 ^ (m + 1)) : y.testBit m = true := by
  have hpos : 0 < 2 ^ m := Nat.pos_pow_of_pos m (by omega)
  have h1 : 1 ≤ y / 2 ^ m := (Nat.one_le_div_iff hpos).mpr hle
  have h2 : y / 2 ^ m < 2 := by
    rw [Nat.div_lt_iff_lt_mul hpos]
    calc y < 2 ^ (m + 1) := hlt
    _ = 2 * 2 ^ m := by ring
  have : y / 2 ^ m = 1 := by omega
  rw [Nat.testBit_to_div_mod, this]
  simp

theorem testBit_log2_self (x : Nat) (hx : x ≠ 0) :
    x.testBit x.log2 = true :=
  testBit_of_le_of_lt x x.log2 (Nat.log2_self_le hx) Nat.lt_log2_self

/-- characterization of the source's `is_pow_of_2` test. -/
theorem is_pow_of_2_true_iff (x : Nat) :
    is_pow_of_2 x = true ↔ x = 0 ∨ ∃ k, x = 2 ^ k := by
  constructor
  · intro h
    by_cases hx : x = 0
    · exact Or.inl hx
    · refine Or.inr ⟨x.log2, ?_⟩
      have hland : x &&& (x - 1) = 0 := by
        have := of_decide_eq_true (by simpa [is_pow_of_2] using h)
        exact this
      apply Nat.eq_of_testBit_eq
      intro j
      rcases lt_trichotomy j x.log2 with hj | hj | hj
      · rw [Nat.testBit_two_pow_of_ne (by omega)]
        by_contra hb
        have hbj : x.testBit j = true := by
          cases hxj : x.testBit j with
          | false => exact absurd hxj hb
          | true => rfl
        have hgt : 2 ^ x.log2 < x := by
          rcases Nat.lt_or_ge (2 ^ x.log2) x with h' | h'
          · exact h'
          · have heq : x = 2 ^ x.log2 := le_antisymm h' (Nat.log2_self_le hx)
            rw [heq, Nat.testBit_two_pow_of_ne (by omega)] at hbj
            exact absurd hbj (by simp)
        have hsub : (x - 1).testBit x.log2 = true :=
          testBit_of_le_of_lt (x - 1) x.log2 (by omega)
            (by have := Nat.lt_log2_self (n := x); omega)
        have : (x &&& (x - 1)).testBit x.log2 = true := by
          rw [Nat.testBit_land, testBit_log2_self x hx, hsub]
          rfl
        rw [hland] at this
        simp at this
      · rw [hj, testBit_log2_self x hx, Nat.testBit_two_pow_self]
      · rw [Nat.testBit_two_pow_of_ne (by omega)]
        exact Nat.testBit_lt_two_pow
          (lt_of_lt_of_le Nat.lt_log2_self
            (Nat.pow_le_pow_right (by omega) (by omega)))
  · intro h
    rcases h with h | ⟨k, h⟩
    · subst h; rfl
    · subst h
      have : 2 ^ k &&& (2 ^ k - 1) = 0 := by
        apply Nat.eq_of_testBit_eq
        intro j
        rw [Nat.testBit_land, Nat.testBit_two_pow_sub_one]
        by_cases hj : j = k
        · subst hj; simp
        · rw [Nat.testBit_two_pow_of_ne (fun h' => hj h'.symm)]
          simp
      simp [is_pow_of_2, this]

/-- what `next_pow_of_2` computes on the sizes the allocator can see:
for `1 ≤ x ≤ 2^32` the result is a power of two, at least `x`, and at
most `2^32`. -/
theorem next_pow_of_2_spec (x : Nat) (h1 : 1 ≤ x) (h2 : x ≤ 2 ^ 32) :
    ∃ k, k ≤ 32 ∧ next_pow_of_2 x = 2 ^ k ∧ x ≤ 2 ^ k := by
  by_cases hp : is_pow_of_2 x = true
  · rcases (is_pow_of_2_true_iff x).mp hp with h | ⟨k, hk⟩
    · omega
    · refine ⟨k, ?_, ?_, ?_⟩
      · by_contra hgt
        have : 2 ^ 33 ≤ 2 ^ k := Nat.pow_le_pow_right (by omega) (by omega)
        have : (2 : Nat) ^ 32 < 2 ^ 33 := by norm_num
        omega
      · subst hk; simp [next_pow_of_2, hp]
      · omega
  · have hp' : is_pow_of_2 x = false := by
      cases h : is_pow_of_2 x with
      | false => rfl
      | true => exact absurd h hp
    have hne32 : x ≠ 2 ^ 32 := by
      intro h
      exact hp ((is_pow_of_2_true_iff x).mpr (Or.inr ⟨32, h⟩))
    have hlt : x < 2 ^ 32 := by omega
    have hm : x.log2 < 32 := (Nat.log2_lt (by omega)).mpr hlt
    have hsmear : smear x = 2 ^ (x.log2 + 1) - 1 := by
      apply Nat.eq_of_testBit_eq
      intro j
      rw [Nat.testBit_two_pow_sub_one]
      by_cases hj : j < x.log2 + 1
      · rw [smear_testBit_true x j (x.log2 - j) (by omega)
          (by rw [show j + (x.log2 - j) = x.log2 by omega]
              exact testBit_log2_self x (by omega))]
        simp [hj]
      · rw [smear_testBit_false x j (fun d _ =>
          Nat.testBit_lt_two_pow
            (lt_of_lt_of_le Nat.lt_log2_self
              (Nat.pow_le_pow_right (by omega) (by omega))))]
        simp [hj]
    refine ⟨x.log2 + 1, by omega, ?_, le_of_lt Nat.lt_log2_self⟩
    rw [next_pow_of_2_eq_smear x hp', hsmear]
    have hpow : 0 < 2 ^ (x.log2 + 1) := Nat.pos_pow_of_pos _ (by omega)
    rw [Nat.sub_add_cancel hpow]
    apply Nat.mod_eq_of_lt
    calc 2 ^ (x.log2 + 1) ≤ 2 ^ 32 := Nat.pow_le_pow_right (by omega) (by omega)
    _ < 2 ^ 64 := by norm_num
    _ = size_t_mod := rfl

/-! ## Basic lemmas about single status writes -/

theorem set_tree_self (s : allocator) (i : Nat) (st : node_status) :
    (s.set_node_status i st).tree i = st := by
  simp [allocator.set_node_status]

theorem set_tree_ne (s : allocator) (i : Nat) (st : node_status) (j : Nat)
    (h : j ≠ i) : (s.set_node_status i st).tree j = s.tree j := by
  simp [allocator.set_node_status, h]

theorem two_pow_div_two (b : Nat) (hb : 1 ≤ b) : (2 : Nat) ^ b / 2 = 2 ^ (b - 1) := by
  have : (2 : Nat) ^ b = 2 ^ (b - 1) * 2 := by
    rw [← Nat.pow_succ]
    congr 1
    omega
  rw [this]
  exact Nat.mul_div_cancel _ (by omega)

/-! ## The alloc walk: success on an unused node, failure changes nothing -/

/-- descending into an `unused` node with a power-of-two size that fits
always succeeds (this is why a failing `alloc` has performed no split). -/
theorem alloc_walk_unused_isSome (al : Nat) :
    ∀ (fuel : Nat) (s : allocator) (i l a b : Nat)
      (o : Option (Nat × Nat × Nat)) (s' : allocator),
      alloc_walk (2 ^ a) al fuel s i l (2 ^ b) = (o, s') →
      s.tree i = node_status.unused → a ≤ b → b < fuel → o.isSome = true := by
  intro fuel
  induction fuel with
  | zero => intro s i l a b o s' _ _ _ h; omega
  | succ fuel ih =>
    intro s i l a b o s' heq hun hab hb
    simp only [alloc_walk] at heq
    by_cases hsz : (2 : Nat) ^ a = 2 ^ b
    · rw [if_pos hsz, if_pos hun] at heq
      split at heq <;> (cases heq; rfl)
    · rw [if_neg hsz, hun] at heq
      have hab' : a < b := by
        rcases Nat.lt_or_ge a b with h | h
        · exact h
        · exact absurd (le_antisymm hab h ▸ rfl) hsz
      rw [two_pow_div_two b (by omega)] at heq
      have hleft : (((s.set_node_status i node_status.splited).set_node_status
          (left_child_index i) node_status.unused).set_node_status
          (right_child_index i) node_status.unused).tree (left_child_index i)
          = node_status.unused := by
        rw [set_tree_ne _ _ _ _ (by unfold left_child_index right_child_index; omega),
          set_tree_self]
      rcases hw : alloc_walk (2 ^ a) al fuel
          (((s.set_node_status i node_status.splited).set_node_status
            (left_child_index i) node_status.unused).set_node_status
            (right_child_index i) node_status.unused)
          (left_child_index i) (l + 1) (2 ^ (b - 1)) with ⟨o2, s2⟩
      have := ih _ _ _ a (b - 1) o2 s2 hw hleft (by omega) (by omega)
      rw [hw] at heq
      cases o2 with
      | some r => cases heq; rfl
      | none => simp at this

/-- a failing walk performs no status write: the returned state is the
argument state (the only writes happen when an `unused` node is split,
and by `alloc_walk_unused_isSome` the walk then succeeds). -/
theorem alloc_walk_fail_state_eq (al : Nat) :
    ∀ (fuel : Nat) (s : allocator) (i l a b : Nat) (s' : allocator),
      alloc_walk (2 ^ a) al fuel s i l (2 ^ b) = (none, s') →
      a ≤ b → b < fuel → s' = s := by
  intro fuel
  induction fuel with
  | zero => intro s i l a b s' _ _ h; omega
  | succ fuel ih =>
    intro s i l a b s' heq hab hb
    simp only [alloc_walk] at heq
    by_cases hsz : (2 : Nat) ^ a = 2 ^ b
    · rw [if_pos hsz] at heq
      by_cases hun : s.tree i = node_status.unused
      · rw [if_pos hun] at heq
        split at heq <;> cases heq
      · rw [if_neg hun] at heq
        cases heq
        rfl
    · rw [if_neg hsz] at heq
      have hab' : a < b := by
        rcases Nat.lt_or_ge a b with h | h
        · exact h
        · exact absurd (le_antisymm hab h ▸ rfl) hsz
      cases hstat : s.tree i with
      | used => rw [hstat] at heq; cases heq; rfl
      | used_with_alignment => rw [hstat] at heq; cases heq; rfl
      | unused =>
        rw [hstat, two_pow_div_two b (by omega)] at heq
        have hleft : (((s.set_node_status i node_status.splited).set_node_status
            (left_child_index i) node_status.unused).set_node_status
            (right_child_index i) node_status.unused).tree (left_child_index i)
            = node_status.unused := by
          rw [set_tree_ne _ _ _ _ (by unfold left_child_index right_child_index; omega),
            set_tree_self]
        rcases hw : alloc_walk (2 ^ a) al fuel
            (((s.set_node_status i node_status.splited).set_node_status
              (left_child_index i) node_status.unused).set_node_status
              (right_child_index i) node_status.unused)
            (left_child_index i) (l + 1) (2 ^ (b - 1)) with ⟨o2, s2⟩
        have hsome := alloc_walk_unused_isSome al fuel _ _ _ a (b - 1) o2 s2 hw
          hleft (by omega) (by omega)
        rw [hw] at heq
        cases o2 with
        | some r => cases heq
        | none => simp at hsome
      | splited =>
        rw [hstat, two_pow_div_two b (by omega)] at heq
        rcases hw : alloc_walk (2 ^ a) al fuel s (left_child_index i) (l + 1)
            (2 ^ (b - 1)) with ⟨o2, s2⟩
        rw [hw] at heq
        cases o2 with
        | some r => cases heq
        | none =>
          have hs2 : s2 = s := ih _ _ _ a (b - 1) s2 hw (by omega) (by omega)
          subst hs2
          exact ih _ _ _ a (b - 1) s' heq (by omega) (by omega)

/-- Claim C6: failure atomicity of `allocator::alloc`.  Whenever
`alloc(size, alignment)` returns null — because the rounded size exceeds
the per-call cap or the arena, or because the tree walk finds no free
block — the arena state (every tree bit and `used_size`) is exactly as
it was before the call.  The size bounds keep the C++ `size_t`
arithmetic of the request inflation away from wrap-around. -/
theorem alloc_failure_atomic (s : allocator) (size alignment : Nat)
    (hsz : size ≤ 2 ^ 31) (hal : alignment ≤ 2 ^ 31)
    (h : (s.alloc_core size alignment).1 = none) :
    (s.alloc_core size alignment).2 = s := by
  have hmain : ∀ s' : allocator,
      s.alloc_core size alignment = (none, s') → s' = s := by
    intro s' heq
    rw [allocator.alloc_core] at heq
    simp only at heq
    set size1 := if size = 0 then 1 else size with hs1
    have hs1b : 1 ≤ size1 ∧ size1 ≤ 2 ^ 31 := by
      rw [hs1]
      split <;> omega
    set size2 := if alignment > 1 then (size1 + alignment - 1) % size_t_mod
      else size1 with hs2
    have hs2b : 1 ≤ size2 ∧ size2 ≤ 2 ^ 32 := by
      rw [hs2]
      split
      · rw [Nat.mod_eq_of_lt (by unfold size_t_mod; omega)]
        omega
      · omega
    obtain ⟨k, hk32, hknp, hkge⟩ := next_pow_of_2_spec size2 hs2b.1 hs2b.2
    rw [hknp] at heq
    by_cases hg1 : 2 ^ k > UINT32_MAX
    · rw [if_pos hg1] at heq
      cases heq
      rfl
    · rw [if_neg hg1] at heq
      by_cases hg2 : 2 ^ k > 1 <<< s.max_level
      · rw [if_pos hg2] at heq
        cases heq
        rfl
      · rw [if_neg hg2] at heq
        have hkL : k ≤ s.max_level := by
          have h2 : (2 : Nat) ^ k ≤ 2 ^ s.max_level := by
            rw [Nat.shiftLeft_eq, Nat.one_mul] at hg2
            omega
          exact (Nat.pow_le_pow_iff_right (by omega)).mp h2
        rw [Nat.shiftLeft_eq, Nat.one_mul] at heq
        exact alloc_walk_fail_state_eq alignment (s.max_level + 2) s 0 0 k
          s.max_level s' heq hkL (by omega)
  rcases hcore : s.alloc_core size alignment with ⟨o, s2⟩
  rw [hcore] at h
  have ho : o = none := h
  subst ho
  simpa using hmain s2 hcore

theorem alloc_failure_atomic_witness :
    ((8 : Nat) ≤ 2 ^ 31) ∧ ((1 : Nat) ≤ 2 ^ 31) ∧
    ((full_arena.alloc_core 8 1).1 = none) ∧
    ((full_arena.alloc_core 8 1).2 = full_arena) :=
  ⟨by norm_num, by norm_num, by decide,
    alloc_failure_atomic full_arena 8 1 (by norm_num) (by norm_num) (by decide)⟩

/-- the walk changes neither `data` nor `max_level`, and it adds the
requested size to `used_size` exactly when it succeeds. -/
theorem alloc_walk_fields (sz al : Nat) :
    ∀ (fuel : Nat) (s : allocator) (i l len : Nat)
      (o : Option (Nat × Nat × Nat)) (s' : allocator),
      alloc_walk sz al fuel s i l len = (o, s') →
      s'.data = s.data ∧ s'.max_level = s.max_level ∧
      s'.used_size = s.used_size + (if o.isSome then sz else 0) := by
  intro fuel
  induction fuel with
  | zero =>
    intro s i l len o s' heq
    simp only [alloc_walk] at heq
    cases heq
    simp
  | succ fuel ih =>
    intro s i l len o s' heq
    simp only [alloc_walk] at heq
    by_cases hsz : sz = len
    · rw [if_pos hsz] at heq
      by_cases hun : s.tree i = node_status.unused
      · rw [if_pos hun] at heq
        split at heq <;> (cases heq; simp [allocator.set_node_status, hsz])
      · rw [if_neg hun] at heq
        cases heq
        simp
    · rw [if_neg hsz] at heq
      cases hstat : s.tree i with
      | used => rw [hstat] at heq; cases heq; simp
      | used_with_alignment => rw [hstat] at heq; cases heq; simp
      | unused =>
        rw [hstat] at heq
        rcases hw : alloc_walk sz al fuel
            (((s.set_node_status i node_status.splited).set_node_status
              (left_child_index i) node_status.unused).set_node_status
              (right_child_index i) node_status.unused)
            (left_child_index i) (l + 1) (len / 2) with ⟨o2, s2⟩
        rw [hw] at heq
        have h1 := ih _ _ _ _ o2 s2 hw
        cases o2 with
        | some r =>
          cases heq
          simpa [allocator.set_node_status] using h1
        | none =>
          have h2 := ih _ _ _ _ o s' heq
          simp only [allocator.set_node_status, Option.isSome_none] at h1 h2
          refine ⟨by rw [h2.1, h1.1], by rw [h2.2.1, h1.2.1], ?_⟩
          rw [h2.2.2, h1.2.2]
          simp
      | splited =>
        rw [hstat] at heq
        rcases hw : alloc_walk sz al fuel s (left_child_index i) (l + 1)
            (len / 2) with ⟨o2, s2⟩
        rw [hw] at heq
        have h1 := ih _ _ _ _ o2 s2 hw
        cases o2 with
        | some r =>
          cases heq
          simpa using h1
        | none =>
          have h2 := ih _ _ _ _ o s' heq
          simp only [Option.isSome_none] at h1
          refine ⟨by rw [h2.1, h1.1], by rw [h2.2.1, h1.2.1], ?_⟩
          rw [h2.2.2, h1.2.2]
          simp

/-- what the claim step of the walk does: when the walk hands out a
pointer, the claimed node `j` at depth `lj` is tagged
`used_with_alignment` with the pointer advanced to the next multiple of
the alignment exactly when `alignment > 1` and the block's base address
is misaligned, and tagged `used` with the pointer equal to the block's
base address otherwise. -/
theorem alloc_walk_claim_spec (sz al : Nat) :
    ∀ (fuel : Nat) (s : allocator) (i l len : Nat) (p j lj : Nat)
      (s' : allocator),
      alloc_walk sz al fuel s i l len = (some (p, j, lj), s') →
      (al > 1 ∧ (s.data + _index_offset j lj s.max_level) % al ≠ 0 →
        s'.tree j = node_status.used_with_alignment ∧
        p = s.data + _index_offset j lj s.max_level
            + (al - (s.data + _index_offset j lj s.max_level) % al)) ∧
      (¬ (al > 1 ∧ (s.data + _index_offset j lj s.max_level) % al ≠ 0) →
        s'.tree j = node_status.used ∧
        p = s.data + _index_offset j lj s.max_level) := by
  intro fuel
  induction fuel with
  | zero =>
    intro s i l len p j lj s' heq
    simp only [alloc_walk] at heq
    simp at heq
  | succ fuel ih =>
    intro s i l len p j lj s' heq
    simp only [alloc_walk] at heq
    by_cases hsz : sz = len
    · rw [if_pos hsz] at heq
      by_cases hun : s.tree i = node_status.unused
      · rw [if_pos hun] at heq
        split at heq
        · rename_i hcond
          cases heq
          refine ⟨fun _ => ⟨set_tree_self _ _ _, rfl⟩, fun hn => absurd hcond hn⟩
        · rename_i hcond
          cases heq
          refine ⟨fun hc => absurd hc hcond, fun _ => ⟨set_tree_self _ _ _, rfl⟩⟩
      · rw [if_neg hun] at heq
        simp at heq
    · rw [if_neg hsz] at heq
      cases hstat : s.tree i with
      | used => rw [hstat] at heq; simp at heq
      | used_with_alignment => rw [hstat] at heq; simp at heq
      | unused =>
        rw [hstat] at heq
        rcases hw : alloc_walk sz al fuel
            (((s.set_node_status i node_status.splited).set_node_status
              (left_child_index i) node_status.unused).set_node_status
              (right_child_index i) node_status.unused)
            (left_child_index i) (l + 1) (len / 2) with ⟨o2, s2⟩
        rw [hw] at heq
        cases o2 with
        | some r =>
          obtain ⟨p2, j2, lj2⟩ := r
          cases heq
          have h5 := ih _ _ _ _ _ _ _ _ hw
          exact h5
        | none =>
          have hf := alloc_walk_fields sz al fuel _ _ _ _ _ _ hw
          have hd : s2.data = s.data := hf.1
          have hm : s2.max_level = s.max_level := hf.2.1
          have := ih _ _ _ _ p j lj s' heq
          rwa [hd, hm] at this
      | splited =>
        rw [hstat] at heq
        rcases hw : alloc_walk sz al fuel s (left_child_index i) (l + 1)
            (len / 2) with ⟨o2, s2⟩
        rw [hw] at heq
        cases o2 with
        | some r =>
          obtain ⟨p2, j2, lj2⟩ := r
          cases heq
          exact ih _ _ _ _ _ _ _ _ hw
        | none =>
          have hf := alloc_walk_fields sz al fuel _ _ _ _ _ _ hw
          have := ih _ _ _ _ p j lj s' heq
          rwa [hf.1, hf.2.1] at this

/-- `alloc_core` is the two guards followed by the walk on
`rounded_size`. -/
theorem alloc_core_eq (s : allocator) (size alignment : Nat) :
    s.alloc_core size alignment =
      (if rounded_size size alignment > UINT32_MAX then (none, s)
       else if rounded_size size alignment > 1 <<< s.max_level then (none, s)
       else alloc_walk (rounded_size size alignment) alignment
        (s.max_level + 2) s 0 0 (1 <<< s.max_level)) := rfl

/-- a successful `alloc_core` passed both guards and its walk succeeded. -/
theorem alloc_core_success_walk (s : allocator) (size alignment : Nat)
    (p j lj : Nat) (s' : allocator)
    (h : s.alloc_core size alignment = (some (p, j, lj), s')) :
    alloc_walk (rounded_size size alignment) alignment (s.max_level + 2) s 0 0
      (1 <<< s.max_level) = (some (p, j, lj), s') ∧
    rounded_size size alignment ≤ UINT32_MAX ∧
    rounded_size size alignment ≤ 1 <<< s.max_level := by
  rw [alloc_core_eq] at h
  split at h
  · simp at h
  · split at h
    · simp at h
    · exact ⟨h, by omega, by omega⟩

/-- Claim C5: alignment correctness of `allocator::alloc`.  Every
successful `alloc(size, alignment)` with `alignment ≥ 1` returns a
pointer that is a multiple of the alignment; when `alignment > 1` and
the claimed block's base address is misaligned the node is tagged
`used_with_alignment` and the pointer is the next aligned address after
the block base, otherwise the node is tagged `used` and the pointer is
the block base itself. -/
theorem alloc_alignment_correct (s : allocator) (size alignment : Nat)
    (hal : 1 ≤ alignment) (p j lj : Nat) (s' : allocator)
    (h : s.alloc_core size alignment = (some (p, j, lj), s')) :
    p % alignment = 0 ∧
    (alignment > 1 ∧ (s.data + _index_offset j lj s.max_level) % alignment ≠ 0 →
      s'.tree j = node_status.used_with_alignment ∧
      p = s.data + _index_offset j lj s.max_level
          + (alignment - (s.data + _index_offset j lj s.max_level) % alignment)) ∧
    (¬ (alignment > 1 ∧
        (s.data + _index_offset j lj s.max_level) % alignment ≠ 0) →
      s'.tree j = node_status.used ∧
      p = s.data + _index_offset j lj s.max_level) := by
  obtain ⟨hw, -, -⟩ := alloc_core_success_walk s size alignment p j lj s' h
  have hspec := alloc_walk_claim_spec (rounded_size size alignment) alignment
    (s.max_level + 2) s 0 0 (1 <<< s.max_level) p j lj s' hw
  refine ⟨?_, hspec.1, hspec.2⟩
  set bp := s.data + _index_offset j lj s.max_level with hbp
  by_cases hc : alignment > 1 ∧ bp % alignment ≠ 0
  · obtain ⟨-, hp⟩ := hspec.1 hc
    have hmod : bp % alignment < alignment := Nat.mod_lt _ (by omega)
    have hdecomp : bp = alignment * (bp / alignment) + bp % alignment :=
      (Nat.div_add_mod bp alignment).symm
    have hstep : p = alignment * (bp / alignment) + alignment := by omega
    rw [hstep, ← Nat.mul_succ]
    exact Nat.mul_mod_right _ _
  · obtain ⟨-, hp⟩ := hspec.2 hc
    rcases Nat.lt_or_ge 1 alignment with h1 | h1
    · have : bp % alignment = 0 := by
        by_contra hne
        exact hc ⟨h1, hne⟩
      rw [hp]
      exact this
    · have : alignment = 1 := by omega
      rw [this]
      exact Nat.mod_one p

theorem alloc_alignment_correct_witness :
    ((1 : Nat) ≤ 3) ∧
    ((mk_allocator 3 8).alloc_core 1 3
        = (some (9, 1, 1), ((mk_allocator 3 8).alloc_core 1 3).2)) ∧
    (9 % 3 = 0) := by
  have hpair : (mk_allocator 3 8).alloc_core 1 3
      = (some (9, 1, 1), ((mk_allocator 3 8).alloc_core 1 3).2) :=
    Prod.ext (by decide) rfl
  exact ⟨by norm_num, hpair,
    (alloc_alignment_correct (mk_allocator 3 8) 1 3 (by norm_num) 9 1 1
      ((mk_allocator 3 8).alloc_core 1 3).2 hpair).1⟩

/-! ## Tree-offset arithmetic -/

theorem _index_offset_eq (i l L : Nat) :
    _index_offset i l L = ((i + 1) - 2 ^ l) * 2 ^ (L - l) := by
  rw [_index_offset, Nat.shiftLeft_eq, Nat.shiftLeft_eq, Nat.one_mul]

theorem valid_node_left (i l : Nat) (h : valid_node i l) :
    valid_node (left_child_index i) (l + 1) := by
  obtain ⟨h1, h2⟩ := h
  unfold left_child_index
  constructor
  · have : 2 ^ (l + 1) = 2 * 2 ^ l := by ring
    omega
  · have : 2 ^ (l + 1 + 1) = 2 * 2 ^ (l + 1) := by ring
    omega

theorem valid_node_right (i l : Nat) (h : valid_node i l) :
    valid_node (right_child_index i) (l + 1) := by
  obtain ⟨h1, h2⟩ := h
  unfold right_child_index
  constructor
  · have : 2 ^ (l + 1) = 2 * 2 ^ l := by ring
    omega
  · have : 2 ^ (l + 1 + 1) = 2 * 2 ^ (l + 1) := by ring
    omega

/-- a left child's range starts where its parent's range starts. -/
theorem _index_offset_left (i l L : Nat) (hv : 2 ^ l ≤ i + 1) (hl : l < L) :
    _index_offset (left_child_index i) (l + 1) L = _index_offset i l L := by
  rw [_index_offset_eq, _index_offset_eq]
  unfold left_child_index
  have h1 : i * 2 + 1 + 1 - 2 ^ (l + 1) = 2 * ((i + 1) - 2 ^ l) := by
    have : 2 ^ (l + 1) = 2 * 2 ^ l := by ring
    omega
  rw [h1]
  have h2 : L - l = (L - (l + 1)) + 1 := by omega
  rw [h2, Nat.pow_succ]
  ring

/-- a right child's range starts at the parent's range start plus the
child block length. -/
theorem _index_offset_right (i l L : Nat) (hv : 2 ^ l ≤ i + 1) (hl : l < L) :
    _index_offset (right_child_index i) (l + 1) L
      = _index_offset i l L + 2 ^ (L - (l + 1)) := by
  rw [_index_offset_eq, _index_offset_eq]
  unfold right_child_index
  have h1 : i * 2 + 2 + 1 - 2 ^ (l + 1) = 2 * ((i + 1) - 2 ^ l) + 1 := by
    have : 2 ^ (l + 1) = 2 * 2 ^ l := by ring
    omega
  rw [h1]
  have h2 : L - l = (L - (l + 1)) + 1 := by omega
  rw [h2, Nat.pow_succ]
  ring

/-! ## The candidate list for Claim C9 -/

/-- every candidate offset lies inside the current node's range. -/
theorem free_offsets_bounds (L : Nat) (t : Nat → node_status) (a : Nat) :
    ∀ (fuel : Nat) (i l b : Nat), valid_node i l → b = L - l → l ≤ L →
      a ≤ b →
      ∀ q ∈ free_offsets L t (2 ^ a) fuel i l (2 ^ b),
        _index_offset i l L ≤ q ∧ q + 2 ^ a ≤ _index_offset i l L + 2 ^ b := by
  intro fuel
  induction fuel with
  | zero => intro i l b _ _ _ _ q hq; simp [free_offsets] at hq
  | succ fuel ih =>
    intro i l b hv hb hl hab q hq
    simp only [free_offsets] at hq
    by_cases hsz : (2 : Nat) ^ a = 2 ^ b
    · rw [if_pos hsz] at hq
      split at hq
      · simp at hq
        subst hq
        omega
      · simp at hq
    · rw [if_neg hsz] at hq
      have hab' : a < b := by
        rcases Nat.lt_or_ge a b with h | h
        · exact h
        · exact absurd (le_antisymm hab h ▸ rfl) hsz
      have hlL : l < L := by omega
      cases hstat : t i with
      | used => rw [hstat] at hq; simp at hq
      | used_with_alignment => rw [hstat] at hq; simp at hq
      | unused =>
        rw [hstat] at hq
        simp at hq
        subst hq
        have : (2 : Nat) ^ a ≤ 2 ^ b := Nat.pow_le_pow_right (by omega) hab
        omega
      | splited =>
        rw [hstat] at hq
        rw [two_pow_div_two b (by omega)] at hq
        rcases List.mem_append.mp hq with hqL | hqR
        · have := ih (left_child_index i) (l + 1) (b - 1)
            (valid_node_left i l hv) (by omega) (by omega) (by omega) q hqL
          rw [_index_offset_left i l L hv.1 hlL] at this
          have h2 : (2 : Nat) ^ (b - 1) ≤ 2 ^ b :=
            Nat.pow_le_pow_right (by omega) (by omega)
          omega
        · have hIH := ih (right_child_index i) (l + 1) (b - 1)
            (valid_node_right i l hv) (by omega) (by omega) (by omega) q hqR
          rw [_index_offset_right i l L hv.1 hlL,
            show L - (l + 1) = b - 1 by omega] at hIH
          have h2 : (2 : Nat) ^ (b - 1) + 2 ^ (b - 1) = 2 ^ b := by
            have hb1 : b - 1 + 1 = b := by omega
            calc (2 : Nat) ^ (b - 1) + 2 ^ (b - 1) = 2 ^ (b - 1) * 2 := by ring
            _ = 2 ^ (b - 1 + 1) := (Nat.pow_succ 2 (b - 1)).symm
            _ = 2 ^ b := by rw [hb1]
          have h3 : 1 ≤ (2 : Nat) ^ (b - 1) := Nat.one_le_two_pow
          omega

/-- the walk is complete and left-leaning: it fails exactly when the
candidate list is empty, and on success the claimed block's offset is
the head of the candidate list and a lower bound of all of it.  The
claimed node is also valid at its depth and its block size is exactly
the requested size. -/
theorem alloc_walk_head_min (al L : Nat) :
    ∀ (fuel : Nat) (s : allocator) (i l a b : Nat)
      (o : Option (Nat × Nat × Nat)) (s' : allocator),
      alloc_walk (2 ^ a) al fuel s i l (2 ^ b) = (o, s') →
      s.max_level = L →
      valid_node i l → b = L - l → l ≤ L → a ≤ b → b < fuel →
      (o = none → free_offsets L s.tree (2 ^ a) fuel i l (2 ^ b) = []) ∧
      (∀ p j lj, o = some (p, j, lj) →
        ∃ rest,
          free_offsets L s.tree (2 ^ a) fuel i l (2 ^ b)
            = _index_offset j lj L :: rest ∧
          (∀ q ∈ rest, _index_offset j lj L ≤ q) ∧
          valid_node j lj ∧ l ≤ lj ∧ lj ≤ L ∧ a = L - lj) := by
  intro fuel
  induction fuel with
  | zero => intro s i l a b o s' _ _ _ _ _ _ h; omega
  | succ fuel ih =>
    intro s i l a b o s' heq hsL hv hb hl hab hfb
    simp only [alloc_walk] at heq
    by_cases hsz : (2 : Nat) ^ a = 2 ^ b
    · have hab2 : a = b := Nat.pow_right_injective (by omega) hsz
      rw [if_pos hsz] at heq
      by_cases hun : s.tree i = node_status.unused
      · rw [if_pos hun] at heq
        split at heq <;> cases heq <;>
          refine ⟨fun ho => by simp at ho, ?_⟩ <;>
          · intro p j lj hsome
            cases hsome
            refine ⟨[], ?_, by simp, hv, Nat.le_refl l, hl, by omega⟩
            simp only [free_offsets]
            rw [if_pos hsz, if_pos hun]
      · rw [if_neg hun] at heq
        cases heq
        refine ⟨fun _ => ?_, fun p j lj hsome => by simp at hsome⟩
        simp only [free_offsets]
        rw [if_pos hsz, if_neg hun]
    · rw [if_neg hsz] at heq
      have hab' : a < b := by
        rcases Nat.lt_or_ge a b with h | h
        · exact h
        · exact absurd (le_antisymm hab h ▸ rfl) hsz
      have hlL : l < L := by omega
      obtain ⟨f2, rfl⟩ : ∃ f2, fuel = f2 + 1 := ⟨fuel - 1, by omega⟩
      cases hstat : s.tree i with
      | used =>
        rw [hstat] at heq
        cases heq
        refine ⟨fun _ => ?_, fun p j lj hsome => by simp at hsome⟩
        simp only [free_offsets]
        rw [if_neg hsz, hstat]
      | used_with_alignment =>
        rw [hstat] at heq
        cases heq
        refine ⟨fun _ => ?_, fun p j lj hsome => by simp at hsome⟩
        simp only [free_offsets]
        rw [if_neg hsz, hstat]
      | unused =>
        rw [hstat, two_pow_div_two b (by omega)] at heq
        have hleftun : (((s.set_node_status i node_status.splited).set_node_status
            (left_child_index i) node_status.unused).set_node_status
            (right_child_index i) node_status.unused).tree (left_child_index i)
            = node_status.unused := by
          rw [set_tree_ne _ _ _ _ (by unfold left_child_index right_child_index; omega),
            set_tree_self]
        rcases hw : alloc_walk (2 ^ a) al (f2 + 1)
            (((s.set_node_status i node_status.splited).set_node_status
              (left_child_index i) node_status.unused).set_node_status
              (right_child_index i) node_status.unused)
            (left_child_index i) (l + 1) (2 ^ (b - 1)) with ⟨o2, s2⟩
        have hsome2 := alloc_walk_unused_isSome al (f2 + 1) _ _ _ a (b - 1) o2 s2
          hw hleftun (by omega) (by omega)
        rw [hw] at heq
        cases o2 with
        | none => simp at hsome2
        | some r =>
          obtain ⟨p2, j2, lj2⟩ := r
          cases heq
          have hIH := (ih _ _ _ a (b - 1) _ _ hw (by exact hsL)
            (valid_node_left i l hv) (by omega) (by omega) (by omega)
            (by omega)).2 p2 j2 lj2 rfl
          obtain ⟨rest', hFOeq, hmin', hvj, hljge, hljle, haeq⟩ := hIH
          have hFO1 : free_offsets L
              ((((s.set_node_status i node_status.splited).set_node_status
                (left_child_index i) node_status.unused).set_node_status
                (right_child_index i) node_status.unused)).tree (2 ^ a) (f2 + 1)
              (left_child_index i) (l + 1) (2 ^ (b - 1))
              = [_index_offset (left_child_index i) (l + 1) L] := by
            simp only [free_offsets]
            by_cases hsz2 : (2 : Nat) ^ a = 2 ^ (b - 1)
            · rw [if_pos hsz2, if_pos hleftun]
            · rw [if_neg hsz2, hleftun]
          rw [hFO1] at hFOeq
          have hoff : _index_offset j2 lj2 L
              = _index_offset (left_child_index i) (l + 1) L ∧ rest' = [] := by
            have h1 := List.head_eq_of_cons_eq hFOeq
            have h2 := List.tail_eq_of_cons_eq hFOeq
            exact ⟨h1.symm, h2.symm⟩
          refine ⟨fun ho => by simp at ho, ?_⟩
          intro p j lj hsome
          cases hsome
          refine ⟨[], ?_, by simp, hvj, by omega, hljle, haeq⟩
          simp only [free_offsets]
          rw [if_neg hsz, hstat, hoff.1,
            _index_offset_left i l L hv.1 hlL]
      | splited =>
        rw [hstat, two_pow_div_two b (by omega)] at heq
        rcases hw : alloc_walk (2 ^ a) al (f2 + 1) s (left_child_index i)
            (l + 1) (2 ^ (b - 1)) with ⟨o2, s2⟩
        rw [hw] at heq
        have hFOgoal : free_offsets L s.tree (2 ^ a) (f2 + 1 + 1) i l (2 ^ b)
            = free_offsets L s.tree (2 ^ a) (f2 + 1) (left_child_index i)
                (l + 1) (2 ^ b / 2) ++
              free_offsets L s.tree (2 ^ a) (f2 + 1) (right_child_index i)
                (l + 1) (2 ^ b / 2) := by
          simp only [free_offsets]
          rw [if_neg hsz, hstat]
        rw [two_pow_div_two b (by omega)] at hFOgoal
        cases o2 with
        | some r =>
          obtain ⟨p2, j2, lj2⟩ := r
          cases heq
          have hIH := (ih _ _ _ a (b - 1) _ _ hw hsL
            (valid_node_left i l hv) (by omega) (by omega) (by omega)
            (by omega)).2 p2 j2 lj2 rfl
          obtain ⟨rest', hFOeq, hmin', hvj, hljge, hljle, haeq⟩ := hIH
          refine ⟨fun ho => by simp at ho, ?_⟩
          intro p j lj hsome
          cases hsome
          refine ⟨rest' ++ free_offsets L s.tree (2 ^ a) (f2 + 1)
            (right_child_index i) (l + 1) (2 ^ (b - 1)), ?_, ?_, hvj,
            by omega, hljle, haeq⟩
          · rw [hFOgoal, hFOeq]
            simp
          · intro q hq
            rcases List.mem_append.mp hq with hqL | hqR
            · exact hmin' q hqL
            · have hhead : _index_offset j2 lj2 L ∈ free_offsets L s.tree
                  (2 ^ a) (f2 + 1) (left_child_index i) (l + 1) (2 ^ (b - 1)) := by
                rw [hFOeq]
                exact List.mem_cons_self _ _
              have hbL := free_offsets_bounds L s.tree a (f2 + 1)
                (left_child_index i) (l + 1) (b - 1) (valid_node_left i l hv)
                (by omega) (by omega) (by omega) _ hhead
              have hbR := free_offsets_bounds L s.tree a (f2 + 1)
                (right_child_index i) (l + 1) (b - 1) (valid_node_right i l hv)
                (by omega) (by omega) (by omega) q hqR
              rw [_index_offset_left i l L hv.1 hlL] at hbL
              rw [_index_offset_right i l L hv.1 hlL,
                show L - (l + 1) = b - 1 by omega] at hbR
              have hpos : 1 ≤ (2 : Nat) ^ a := Nat.one_le_two_pow
              omega
        | none =>
          have hs2 : s2 = s := alloc_walk_fail_state_eq al (f2 + 1) s
            (left_child_index i) (l + 1) a (b - 1) s2 hw (by omega) (by omega)
          subst hs2
          have hIHL := (ih _ _ _ a (b - 1) _ _ hw hsL
            (valid_node_left i l hv) (by omega) (by omega) (by omega)
            (by omega)).1 rfl
          have hIHR := ih _ _ _ a (b - 1) _ _ heq hsL
            (valid_node_right i l hv) (by omega) (by omega) (by omega)
            (by omega)
          constructor
          · intro ho
            rw [hFOgoal, hIHL, hIHR.1 ho]
            rfl
          · intro p j lj hsome
            obtain ⟨rest', hFOeq, hmin', hvj, hljge, hljle, haeq⟩ :=
              hIHR.2 p j lj hsome
            refine ⟨rest', ?_, hmin', hvj, by omega, hljle, haeq⟩
            rw [hFOgoal, hIHL, hFOeq]
            rfl

/-- for sizes and alignments the pool tier can produce, the rounded
request is a power of two of at most `2^32` that dominates both the
request and the alignment. -/
theorem rounded_size_spec (size alignment : Nat)
    (hsz : size ≤ 2 ^ 31) (hal : alignment ≤ 2 ^ 31) :
    ∃ k, k ≤ 32 ∧ rounded_size size alignment = 2 ^ k ∧
      alignment ≤ 2 ^ k ∧ size ≤ 2 ^ k := by
  unfold rounded_size
  have hb : 1 ≤ (if alignment > 1
        then ((if size = 0 then 1 else size) + alignment - 1) % size_t_mod
        else if size = 0 then 1 else size) ∧
      (if alignment > 1
        then ((if size = 0 then 1 else size) + alignment - 1) % size_t_mod
        else if size = 0 then 1 else size) ≤ 2 ^ 32 ∧
      alignment ≤ (if alignment > 1
        then ((if size = 0 then 1 else size) + alignment - 1) % size_t_mod
        else if size = 0 then 1 else size) ∧
      size ≤ (if alignment > 1
        then ((if size = 0 then 1 else size) + alignment - 1) % size_t_mod
        else if size = 0 then 1 else size) := by
    have hy : 1 ≤ (if size = 0 then 1 else size) ∧
        size ≤ (if size = 0 then 1 else size) ∧
        (if size = 0 then 1 else size) ≤ 2 ^ 31 := by
      split <;> omega
    split
    · rw [Nat.mod_eq_of_lt (by unfold size_t_mod; omega)]
      omega
    · omega
  obtain ⟨k, hk32, hknp, hkge⟩ := next_pow_of_2_spec _ hb.1 hb.2.1
  exact ⟨k, hk32, hknp, le_trans hb.2.2.1 hkge, le_trans hb.2.2.2 hkge⟩

/-- Claim C9: a successful `alloc` claims the lowest-address free block
of the rounded size: its offset heads the left-leaning candidate list
`free_offsets` and bounds every other candidate from below; the
returned pointer lies inside that block, and with no alignment
constraint it is exactly the block's base address. -/
theorem alloc_returns_lowest_address_free_block
    (s : allocator) (size alignment : Nat)
    (hsz : size ≤ 2 ^ 31) (hal1 : 1 ≤ alignment) (hal : alignment ≤ 2 ^ 31)
    (p j lj : Nat) (s' : allocator)
    (h : s.alloc_core size alignment = (some (p, j, lj), s')) :
    ∃ rest,
      free_offsets s.max_level s.tree (rounded_size size alignment)
          (s.max_level + 2) 0 0 (2 ^ s.max_level)
        = _index_offset j lj s.max_level :: rest ∧
      (∀ q ∈ rest, _index_offset j lj s.max_level ≤ q) ∧
      s.data + _index_offset j lj s.max_level ≤ p ∧
      p < s.data + _index_offset j lj s.max_level
          + rounded_size size alignment ∧
      (alignment = 1 → p = s.data + _index_offset j lj s.max_level) := by
  obtain ⟨hw, hg1, hg2⟩ := alloc_core_success_walk s size alignment p j lj s' h
  obtain ⟨k, hk32, hknp, hkal, hksz⟩ := rounded_size_spec size alignment hsz hal
  rw [hknp] at hw hg2 ⊢
  rw [Nat.shiftLeft_eq, Nat.one_mul] at hw hg2
  have hkL : k ≤ s.max_level := (Nat.pow_le_pow_iff_right (by omega)).mp hg2
  obtain ⟨rest, hFO, hmin, hvj, -, hljle, hka⟩ :=
    (alloc_walk_head_min alignment s.max_level (s.max_level + 2) s 0 0 k
      s.max_level _ _ hw rfl (by unfold valid_node; omega) (by omega)
      (by omega) hkL (by omega)).2 p j lj rfl
  have hspec := alloc_walk_claim_spec (2 ^ k) alignment (s.max_level + 2) s 0 0
    (2 ^ s.max_level) p j lj s' hw
  have hpb : s.data + _index_offset j lj s.max_level ≤ p ∧
      p < s.data + _index_offset j lj s.max_level + 2 ^ k ∧
      (alignment = 1 → p = s.data + _index_offset j lj s.max_level) := by
    set bp := s.data + _index_offset j lj s.max_level with hbp
    by_cases hc : alignment > 1 ∧ bp % alignment ≠ 0
    · obtain ⟨-, hp⟩ := hspec.1 hc
      have hr : bp % alignment < alignment := Nat.mod_lt _ (by omega)
      have h1 : (1 : Nat) ≤ 2 ^ k := Nat.one_le_two_pow
      refine ⟨by omega, by omega, fun h1 => absurd hc.1 (by omega)⟩
    · obtain ⟨-, hp⟩ := hspec.2 hc
      have h1 : (1 : Nat) ≤ 2 ^ k := Nat.one_le_two_pow
      exact ⟨by omega, by omega, fun _ => hp⟩
  exact ⟨rest, hFO, hmin, hpb.1, hpb.2.1, hpb.2.2⟩

theorem alloc_returns_lowest_address_free_block_witness :
    ((1 : Nat) ≤ 2 ^ 31) ∧
    ((mk_allocator 2 4).alloc_core 1 1
      = (some (4, 3, 2), ((mk_allocator 2 4).alloc_core 1 1).2)) ∧
    (∃ rest,
      free_offsets (mk_allocator 2 4).max_level (mk_allocator 2 4).tree
          (rounded_size 1 1) ((mk_allocator 2 4).max_level + 2) 0 0
          (2 ^ (mk_allocator 2 4).max_level)
        = _index_offset 3 2 (mk_allocator 2 4).max_level :: rest ∧
      (∀ q ∈ rest, _index_offset 3 2 (mk_allocator 2 4).max_level ≤ q) ∧
      (mk_allocator 2 4).data + _index_offset 3 2 (mk_allocator 2 4).max_level
        ≤ 4 ∧
      4 < (mk_allocator 2 4).data
          + _index_offset 3 2 (mk_allocator 2 4).max_level
          + rounded_size 1 1 ∧
      ((1 : Nat) = 1 →
        4 = (mk_allocator 2 4).data
          + _index_offset 3 2 (mk_allocator 2 4).max_level)) := by
  have hpair : (mk_allocator 2 4).alloc_core 1 1
      = (some (4, 3, 2), ((mk_allocator 2 4).alloc_core 1 1).2) :=
    Prod.ext (by decide) rfl
  exact ⟨by norm_num, hpair,
    alloc_returns_lowest_address_free_block (mk_allocator 2 4) 1 1
      (by norm_num) (by norm_num) (by norm_num) 4 3 2 _ hpair⟩

/-! ## The ancestor relation on breadth-first tree indices -/

theorem anc_refl (x : Nat) : anc x x := ⟨0, by simp⟩

theorem anc_le (a x : Nat) (h : anc a x) : a ≤ x := by
  obtain ⟨d, hd⟩ := h
  have := Nat.div_le_self (x + 1) (2 ^ d)
  omega

theorem anc_antisymm (a x : Nat) (h1 : anc a x) (h2 : anc x a) : a = x := by
  have := anc_le a x h1
  have := anc_le x a h2
  omega

theorem anc_trans (a b c : Nat) (h1 : anc a b) (h2 : anc b c) : anc a c := by
  obtain ⟨d1, hd1⟩ := h1
  obtain ⟨d2, hd2⟩ := h2
  refine ⟨d2 + d1, ?_⟩
  rw [Nat.pow_add, ← Nat.div_div_eq_div_mul, hd2, hd1]

theorem anc_left (i : Nat) : anc i (left_child_index i) :=
  ⟨1, by unfold left_child_index; omega⟩

theorem anc_right (i : Nat) : anc i (right_child_index i) :=
  ⟨1, by unfold right_child_index; omega⟩

theorem anc_root (x : Nat) : anc 0 x := by
  refine ⟨Nat.log2 (x + 1), ?_⟩
  have hlo : 2 ^ Nat.log2 (x + 1) ≤ x + 1 := Nat.log2_self_le (by omega)
  have hhi : x + 1 < 2 ^ (Nat.log2 (x + 1) + 1) := Nat.lt_log2_self
  have hpos : 0 < 2 ^ Nat.log2 (x + 1) := Nat.pos_pow_of_pos _ (by omega)
  have h1 : 1 ≤ (x + 1) / 2 ^ Nat.log2 (x + 1) :=
    (Nat.one_le_div_iff hpos).mpr hlo
  have h2 : (x + 1) / 2 ^ Nat.log2 (x + 1) < 2 := by
    rw [Nat.div_lt_iff_lt_mul hpos]
    calc x + 1 < 2 ^ (Nat.log2 (x + 1) + 1) := hhi
    _ = 2 * 2 ^ Nat.log2 (x + 1) := by ring
  omega

/-- a strict ancestor of `x` is below `x` through one of its children. -/
theorem anc_step (i x : Nat) (h : anc i x) (hne : x ≠ i) :
    anc (left_child_index i) x ∨ anc (right_child_index i) x := by
  obtain ⟨d, hd⟩ := h
  cases d with
  | zero => simp at hd; omega
  | succ d' =>
    have hy : (x + 1) / 2 ^ d' / 2 = i + 1 := by
      rw [Nat.div_div_eq_div_mul, ← Nat.pow_succ]
      exact hd
    have hyb : 2 * (i + 1) ≤ (x + 1) / 2 ^ d' ∧
        (x + 1) / 2 ^ d' < 2 * (i + 1) + 2 := by omega
    rcases Nat.lt_or_ge ((x + 1) / 2 ^ d') (2 * i + 3) with hc | hc
    · left
      exact ⟨d', by unfold left_child_index; omega⟩
    · right
      exact ⟨d', by unfold right_child_index; omega⟩

/-- the two subtrees of a node are disjoint. -/
theorem anc_children_disjoint (i x : Nat)
    (hL : anc (left_child_index i) x) (hR : anc (right_child_index i) x) :
    False := by
  obtain ⟨d1, hd1⟩ := hL
  obtain ⟨d2, hd2⟩ := hR
  unfold left_child_index at hd1
  unfold right_child_index at hd2
  rcases Nat.le_total d1 d2 with hle | hle
  · have : (x + 1) / 2 ^ d2 = (x + 1) / 2 ^ d1 / 2 ^ (d2 - d1) := by
      rw [Nat.div_div_eq_div_mul, ← Nat.pow_add,
        show d1 + (d2 - d1) = d2 by omega]
    rw [this, hd1] at hd2
    have := Nat.div_le_self (i * 2 + 1 + 1) (2 ^ (d2 - d1))
    omega
  · have : (x + 1) / 2 ^ d1 = (x + 1) / 2 ^ d2 / 2 ^ (d1 - d2) := by
      rw [Nat.div_div_eq_div_mul, ← Nat.pow_add,
        show d2 + (d1 - d2) = d1 by omega]
    rw [this, hd2] at hd1
    cases hd : d1 - d2 with
    | zero => rw [hd] at hd1; simp at hd1
    | succ d3 =>
      rw [hd] at hd1
      have h1 : (i * 2 + 2 + 1) / 2 ^ (d3 + 1) ≤ (i * 2 + 2 + 1) / 2 :=
        Nat.div_le_div_left
          (by calc (2 : Nat) = 2 ^ 1 := by norm_num
              _ ≤ 2 ^ (d3 + 1) := Nat.pow_le_pow_right (by omega) (by omega))
          (by omega)
      omega

theorem anc_through_parent (a x : Nat) (hx : 1 ≤ x) (h : anc a x)
    (hne : a ≠ x) : anc a (parent_index x) := by
  obtain ⟨d, hd⟩ := h
  cases d with
  | zero => simp at hd; omega
  | succ d' =>
    refine ⟨d', ?_⟩
    have hp : parent_index x + 1 = (x + 1) / 2 := by
      unfold parent_index
      have : (x + 1) / 2 ≥ 1 := by omega
      omega
    rw [hp, Nat.div_div_eq_div_mul, Nat.mul_comm, ← Nat.pow_succ]
    exact hd

theorem anc_parent (x : Nat) (hx : 1 ≤ x) : anc (parent_index x) x := by
  refine ⟨1, ?_⟩
  unfold parent_index
  have : (x + 1) / 2 ≥ 1 := by omega
  omega

theorem parent_left (i : Nat) : parent_index (left_child_index i) = i := by
  unfold parent_index left_child_index
  omega

theorem parent_right (i : Nat) : parent_index (right_child_index i) = i := by
  unfold parent_index right_child_index
  omega

/-! ## Interval nesting and laminarity -/

/-- the range of a node contains the range of each of its descendants,
and the ancestor of a valid node at a shallower depth is itself valid. -/
theorem anc_offset_nest (L : Nat) :
    ∀ (delta j lj i l : Nat), valid_node j lj → lj ≤ L → l + delta = lj →
      (j + 1) / 2 ^ delta = i + 1 →
      valid_node i l ∧
      _index_offset i l L ≤ _index_offset j lj L ∧
      _index_offset j lj L + 2 ^ (L - lj) ≤ _index_offset i l L + 2 ^ (L - l) := by
  intro delta
  induction delta with
  | zero =>
    intro j lj i l hv hlj hd hq
    simp at hq
    have hi : i = j := by omega
    have hl : l = lj := by omega
    subst hi
    subst hl
    exact ⟨hv, Nat.le_refl _, Nat.le_refl _⟩
  | succ delta ih =>
    intro j lj i l hv hlj hd hq
    have hy : (j + 1) / 2 ^ delta / 2 = i + 1 := by
      rw [Nat.div_div_eq_div_mul, ← Nat.pow_succ]
      exact hq
    have hyb : 2 * (i + 1) ≤ (j + 1) / 2 ^ delta ∧
        (j + 1) / 2 ^ delta < 2 * (i + 1) + 2 := by omega
    have hlL : l < L := by omega
    rcases Nat.lt_or_ge ((j + 1) / 2 ^ delta) (2 * i + 3) with hc | hc
    · -- through the left child
      have hb : (j + 1) / 2 ^ delta = left_child_index i + 1 := by
        unfold left_child_index
        omega
      obtain ⟨hvb, h1, h2⟩ := ih j lj (left_child_index i) (l + 1) hv hlj
        (by omega) hb
      have hvi : valid_node i l := by
        obtain ⟨hb1, hb2⟩ := hvb
        unfold left_child_index at hb1 hb2
        constructor
        · have : 2 ^ (l + 1) = 2 * 2 ^ l := by ring
          omega
        · have : 2 ^ (l + 1 + 1) = 2 * 2 ^ (l + 1) := by ring
          have h2l : 2 ^ (l + 1) = 2 * 2 ^ l := by ring
          omega
      refine ⟨hvi, ?_, ?_⟩
      · rw [_index_offset_left i l L hvi.1 hlL] at h1
        exact h1
      · rw [_index_offset_left i l L hvi.1 hlL] at h2
        have : (2 : Nat) ^ (L - (l + 1)) ≤ 2 ^ (L - l) :=
          Nat.pow_le_pow_right (by omega) (by omega)
        omega
    · -- through the right child
      have hb : (j + 1) / 2 ^ delta = right_child_index i + 1 := by
        unfold right_child_index
        omega
      obtain ⟨hvb, h1, h2⟩ := ih j lj (right_child_index i) (l + 1) hv hlj
        (by omega) hb
      have hvi : valid_node i l := by
        obtain ⟨hb1, hb2⟩ := hvb
        unfold right_child_index at hb1 hb2
        constructor
        · have : 2 ^ (l + 1) = 2 * 2 ^ l := by ring
          omega
        · have : 2 ^ (l + 1 + 1) = 2 * 2 ^ (l + 1) := by ring
          have h2l : 2 ^ (l + 1) = 2 * 2 ^ l := by ring
          omega
      have hro := _index_offset_right i l L hvi.1 hlL
      rw [hro] at h1 h2
      have hsum : (2 : Nat) ^ (L - (l + 1)) + 2 ^ (L - (l + 1)) = 2 ^ (L - l) := by
        have hb1 : L - (l + 1) + 1 = L - l := by omega
        calc (2 : Nat) ^ (L - (l + 1)) + 2 ^ (L - (l + 1))
            = 2 ^ (L - (l + 1)) * 2 := by ring
        _ = 2 ^ (L - (l + 1) + 1) := (Nat.pow_succ 2 _).symm
        _ = 2 ^ (L - l) := by rw [hb1]
      refine ⟨hvi, le_trans (Nat.le_add_right _ _) h1, ?_⟩
      calc _index_offset j lj L + 2 ^ (L - lj)
          ≤ _index_offset i l L + 2 ^ (L - (l + 1)) + 2 ^ (L - (l + 1)) := h2
      _ = _index_offset i l L + (2 ^ (L - (l + 1)) + 2 ^ (L - (l + 1))) := by
          ring
      _ = _index_offset i l L + 2 ^ (L - l) := by rw [hsum]

/-- two distinct nodes at the same depth have disjoint ranges. -/
theorem same_depth_disjoint (L i i' l : Nat) (hv : valid_node i l)
    (hv' : valid_node i' l) (hne : i ≠ i') :
    _index_offset i l L + 2 ^ (L - l) ≤ _index_offset i' l L ∨
    _index_offset i' l L + 2 ^ (L - l) ≤ _index_offset i l L := by
  rcases Nat.lt_or_ge i i' with hlt | hge
  · left
    rw [_index_offset_eq, _index_offset_eq]
    have h1 : (i + 1) - 2 ^ l + 1 ≤ (i' + 1) - 2 ^ l := by
      obtain ⟨ha, _⟩ := hv
      omega
    calc ((i + 1) - 2 ^ l) * 2 ^ (L - l) + 2 ^ (L - l)
        = ((i + 1) - 2 ^ l + 1) * 2 ^ (L - l) := by ring
    _ ≤ ((i' + 1) - 2 ^ l) * 2 ^ (L - l) :=
        Nat.mul_le_mul_right _ h1
  · right
    have hlt : i' < i := by omega
    rw [_index_offset_eq, _index_offset_eq]
    have h1 : (i' + 1) - 2 ^ l + 1 ≤ (i + 1) - 2 ^ l := by
      obtain ⟨ha, _⟩ := hv'
      omega
    calc ((i' + 1) - 2 ^ l) * 2 ^ (L - l) + 2 ^ (L - l)
        = ((i' + 1) - 2 ^ l + 1) * 2 ^ (L - l) := by ring
    _ ≤ ((i + 1) - 2 ^ l) * 2 ^ (L - l) :=
        Nat.mul_le_mul_right _ h1

/-- ranges of tree nodes are laminar: two overlapping ranges are
ancestor-related. -/
theorem overlap_anc (L j lj j' lj' : Nat) (hv : valid_node j lj)
    (hv' : valid_node j' lj') (_hlj : lj ≤ L) (hlj' : lj' ≤ L)
    (hd : lj ≤ lj')
    (h1 : _index_offset j' lj' L < _index_offset j lj L + 2 ^ (L - lj))
    (h2 : _index_offset j lj L < _index_offset j' lj' L + 2 ^ (L - lj')) :
    anc j j' := by
  set b := (j' + 1) / 2 ^ (lj' - lj) - 1 with hbdef
  have hbq : (j' + 1) / 2 ^ (lj' - lj) = b + 1 := by
    have : 1 ≤ (j' + 1) / 2 ^ (lj' - lj) := by
      rw [Nat.one_le_div_iff (Nat.pos_pow_of_pos _ (by omega))]
      calc 2 ^ (lj' - lj) ≤ 2 ^ lj' := Nat.pow_le_pow_right (by omega) (by omega)
      _ ≤ j' + 1 := hv'.1
    omega
  obtain ⟨hvb, hn1, hn2⟩ := anc_offset_nest L (lj' - lj) j' lj' b lj hv' hlj'
    (by omega) hbq
  by_cases hbj : b = j
  · subst hbj
    exact ⟨lj' - lj, hbq⟩
  · exfalso
    rcases same_depth_disjoint L b j lj hvb hv (fun h => hbj h) with hc | hc
    · omega
    · omega

/-- a valid node's range lies inside the arena. -/
theorem _index_offset_range (i l L : Nat) (hv : valid_node i l) (hl : l ≤ L) :
    _index_offset i l L + 2 ^ (L - l) ≤ 2 ^ L := by
  rw [_index_offset_eq]
  obtain ⟨h1, h2⟩ := hv
  have h3 : (i + 1) - 2 ^ l + 1 ≤ 2 ^ l := by
    have : 2 ^ (l + 1) = 2 * 2 ^ l := by ring
    omega
  calc ((i + 1) - 2 ^ l) * 2 ^ (L - l) + 2 ^ (L - l)
      = ((i + 1) - 2 ^ l + 1) * 2 ^ (L - l) := by ring
  _ ≤ 2 ^ l * 2 ^ (L - l) := Nat.mul_le_mul_right _ h3
  _ = 2 ^ (l + (L - l)) := (Nat.pow_add 2 l (L - l)).symm
  _ = 2 ^ L := by rw [show l + (L - l) = L by omega]

/-! ## What a successful walk does to the tree -/

theorem not_anc_left_self (i : Nat) : ¬ anc (left_child_index i) i := by
  intro h
  have := anc_le _ _ h
  unfold left_child_index at this
  omega

theorem not_anc_right_self (i : Nat) : ¬ anc (right_child_index i) i := by
  intro h
  have := anc_le _ _ h
  unfold right_child_index at this
  omega

/-- a successful walk from node `i` claims a node `j` inside `i`'s
subtree, leaves every node outside `i`'s subtree untouched, makes all
of `j`'s strict ancestors inside the subtree `splited`, and preserves
every already-used node whose in-subtree ancestors were all `splited`
(together with that ancestor property); such a node is never the
claimed one. -/
theorem alloc_walk_preserve (al L : Nat) :
    ∀ (fuel : Nat) (s : allocator) (i l a b : Nat) (p j lj : Nat)
      (s' : allocator),
      alloc_walk (2 ^ a) al fuel s i l (2 ^ b) = (some (p, j, lj), s') →
      s.max_level = L →
      valid_node i l → b = L - l → l ≤ L → a ≤ b → b < fuel →
      (∀ x, ¬ anc i x → s'.tree x = s.tree x) ∧
      anc i j ∧
      (∀ a2, anc a2 j → a2 ≠ j → anc i a2 →
        s'.tree a2 = node_status.splited) ∧
      (∀ x, (s.tree x = node_status.used ∨
          s.tree x = node_status.used_with_alignment) →
        (∀ a2, anc a2 x → a2 ≠ x → anc i a2 →
          s.tree a2 = node_status.splited) →
        s'.tree x = s.tree x ∧
        (∀ a2, anc a2 x → a2 ≠ x → anc i a2 →
          s'.tree a2 = node_status.splited) ∧
        x ≠ j) := by
  intro fuel
  induction fuel with
  | zero => intro s i l a b p j lj s' _ _ _ _ _ _ h; omega
  | succ fuel ih =>
    intro s i l a b p j lj s' heq hsL hv hb hl hab hfb
    simp only [alloc_walk] at heq
    by_cases hsz : (2 : Nat) ^ a = 2 ^ b
    · rw [if_pos hsz] at heq
      by_cases hun : s.tree i = node_status.unused
      · rw [if_pos hun] at heq
        split at heq <;> cases heq <;>
        · refine ⟨?_, anc_refl i, ?_, ?_⟩
          · intro x hx
            exact set_tree_ne _ _ _ _ (fun h => hx (h ▸ anc_refl i))
          · intro a2 h1 h2 h3
            exact absurd (anc_antisymm a2 i h1 h3) h2
          · intro x hx hpath
            have hxi : x ≠ i := by
              intro h
              rw [h, hun] at hx
              rcases hx with h2 | h2 <;> simp at h2
            refine ⟨set_tree_ne _ _ _ _ hxi, ?_, hxi⟩
            intro a2 ha1 ha2 ha3
            have ha2i : a2 ≠ i := by
              intro h
              have hs := hpath a2 ha1 ha2 ha3
              rw [h, hun] at hs
              simp at hs
            rw [set_tree_ne _ _ _ _ ha2i]
            exact hpath a2 ha1 ha2 ha3
      · rw [if_neg hun] at heq
        simp at heq
    · rw [if_neg hsz] at heq
      have hab' : a < b := by
        rcases Nat.lt_or_ge a b with h | h
        · exact h
        · exact absurd (le_antisymm hab h ▸ rfl) hsz
      cases hstat : s.tree i with
      | used => rw [hstat] at heq; simp at heq
      | used_with_alignment => rw [hstat] at heq; simp at heq
      | unused =>
        rw [hstat, two_pow_div_two b (by omega)] at heq
        have hleftun : (((s.set_node_status i node_status.splited).set_node_status
            (left_child_index i) node_status.unused).set_node_status
            (right_child_index i) node_status.unused).tree (left_child_index i)
            = node_status.unused := by
          rw [set_tree_ne _ _ _ _ (by unfold left_child_index right_child_index; omega),
            set_tree_self]
        rcases hw : alloc_walk (2 ^ a) al fuel
            (((s.set_node_status i node_status.splited).set_node_status
              (left_child_index i) node_status.unused).set_node_status
              (right_child_index i) node_status.unused)
            (left_child_index i) (l + 1) (2 ^ (b - 1)) with ⟨o2, s2⟩
        have hsome2 := alloc_walk_unused_isSome al fuel _ _ _ a (b - 1) o2 s2
          hw hleftun (by omega) (by omega)
        rw [hw] at heq
        cases o2 with
        | none => simp at hsome2
        | some r =>
          obtain ⟨p2, j2, lj2⟩ := r
          cases heq
          obtain ⟨hW1, hancj, hW3, hW2⟩ := ih _ _ _ a (b - 1) _ _ _ _ hw
            (by exact hsL) (valid_node_left i l hv) (by omega) (by omega)
            (by omega) (by omega)
          have ht1i : (((s.set_node_status i node_status.splited).set_node_status
              (left_child_index i) node_status.unused).set_node_status
              (right_child_index i) node_status.unused).tree i
              = node_status.splited := by
            rw [set_tree_ne _ _ _ _ (by unfold right_child_index; omega),
              set_tree_ne _ _ _ _ (by unfold left_child_index; omega),
              set_tree_self]
          have ht1other : ∀ x, x ≠ i → x ≠ left_child_index i →
              x ≠ right_child_index i →
              (((s.set_node_status i node_status.splited).set_node_status
                (left_child_index i) node_status.unused).set_node_status
                (right_child_index i) node_status.unused).tree x = s.tree x := by
            intro x h1 h2 h3
            rw [set_tree_ne _ _ _ _ h3, set_tree_ne _ _ _ _ h2,
              set_tree_ne _ _ _ _ h1]
          have hW1com : ∀ x, ¬ anc i x → s'.tree x = s.tree x := by
            intro x hx
            have hxne1 : x ≠ i := fun h => hx (h ▸ anc_refl i)
            have hxne2 : x ≠ left_child_index i := fun h => hx (h ▸ anc_left i)
            have hxne3 : x ≠ right_child_index i := fun h => hx (h ▸ anc_right i)
            rw [hW1 x (fun h => hx (anc_trans i (left_child_index i) x
              (anc_left i) h))]
            exact ht1other x hxne1 hxne2 hxne3
          refine ⟨hW1com, anc_trans i (left_child_index i) j (anc_left i) hancj,
            ?_, ?_⟩
          · intro a2 h1 h2 h3
            by_cases hla : anc (left_child_index i) a2
            · exact hW3 a2 h1 h2 hla
            · by_cases hai : a2 = i
              · rw [hai, hW1 i (not_anc_left_self i)]
                exact ht1i
              · rcases anc_step i a2 h3 hai with hL | hR
                · exact absurd hL hla
                · exact absurd (anc_trans _ _ _ hR h1)
                    (fun hc => anc_children_disjoint i j hancj hc)
          · intro x hx hpath
            by_cases hix : anc i x
            · by_cases hxe : x = i
              · subst hxe
                rw [hstat] at hx
                rcases hx with h | h <;> simp at h
              · have := hpath i hix (fun h => hxe h.symm) (anc_refl i)
                rw [hstat] at this
                simp at this
            · have hxne1 : x ≠ i := fun h => hix (h ▸ anc_refl i)
              refine ⟨hW1com x hix, ?_, ?_⟩
              · intro a2 ha1 ha2 ha3
                exact absurd (anc_trans _ _ _ ha3 ha1) hix
              · intro h
                exact hix (h ▸ anc_trans i (left_child_index i) j
                  (anc_left i) hancj)
      | splited =>
        rw [hstat, two_pow_div_two b (by omega)] at heq
        rcases hw : alloc_walk (2 ^ a) al fuel s (left_child_index i) (l + 1)
            (2 ^ (b - 1)) with ⟨o2, s2⟩
        rw [hw] at heq
        cases o2 with
        | some r =>
          obtain ⟨p2, j2, lj2⟩ := r
          cases heq
          obtain ⟨hW1, hancj, hW3, hW2⟩ := ih _ _ _ a (b - 1) _ _ _ _ hw hsL
            (valid_node_left i l hv) (by omega) (by omega) (by omega) (by omega)
          have hW1com : ∀ x, ¬ anc i x → s'.tree x = s.tree x := by
            intro x hx
            exact hW1 x (fun h => hx (anc_trans i (left_child_index i) x
              (anc_left i) h))
          refine ⟨hW1com, anc_trans i (left_child_index i) j (anc_left i) hancj,
            ?_, ?_⟩
          · intro a2 h1 h2 h3
            by_cases hla : anc (left_child_index i) a2
            · exact hW3 a2 h1 h2 hla
            · by_cases hai : a2 = i
              · rw [hai, hW1 i (not_anc_left_self i)]
                exact hstat
              · rcases anc_step i a2 h3 hai with hL | hR
                · exact absurd hL hla
                · exact absurd (anc_trans _ _ _ hR h1)
                    (fun hc => anc_children_disjoint i j hancj hc)
          · intro x hx hpath
            by_cases hxl : anc (left_child_index i) x
            · obtain ⟨hpres, hcond, hne⟩ := hW2 x hx
                (fun a2 u1 u2 u3 => hpath a2 u1 u2
                  (anc_trans i (left_child_index i) a2 (anc_left i) u3))
              refine ⟨hpres, ?_, hne⟩
              intro a2 ha1 ha2 ha3
              by_cases hla : anc (left_child_index i) a2
              · exact hcond a2 ha1 ha2 hla
              · by_cases hai : a2 = i
                · rw [hai, hW1 i (not_anc_left_self i)]
                  exact hstat
                · rcases anc_step i a2 ha3 hai with hL | hR
                  · exact absurd hL hla
                  · exact absurd (anc_trans _ _ _ hR ha1)
                      (fun hc => anc_children_disjoint i x hxl hc)
            · by_cases hxi : anc i x
              · by_cases hxe : x = i
                · subst hxe
                  rw [hstat] at hx
                  rcases hx with h | h <;> simp at h
                · rcases anc_step i x hxi hxe with hL | hR
                  · exact absurd hL hxl
                  · refine ⟨hW1 x hxl, ?_, ?_⟩
                    · intro a2 ha1 ha2 ha3
                      by_cases hla : anc (left_child_index i) a2
                      · exact absurd (anc_trans _ _ _ hla ha1) hxl
                      · by_cases hai : a2 = i
                        · rw [hai, hW1 i (not_anc_left_self i)]
                          exact hstat
                        · rcases anc_step i a2 ha3 hai with hL2 | hR2
                          · exact absurd hL2 hla
                          · rw [hW1 a2 hla]
                            exact hpath a2 ha1 ha2 ha3
                    · intro h
                      exact hxl (h ▸ hancj)
              · refine ⟨hW1 x hxl, ?_, ?_⟩
                · intro a2 ha1 ha2 ha3
                  exact absurd (anc_trans _ _ _ ha3 ha1) hxi
                · intro h
                  exact hxi (h ▸ anc_trans i (left_child_index i) j
                    (anc_left i) hancj)
        | none =>
          have hs2 : s2 = s := alloc_walk_fail_state_eq al fuel s
            (left_child_index i) (l + 1) a (b - 1) s2 hw (by omega) (by omega)
          rw [hs2] at heq
          obtain ⟨hW1, hancj, hW3, hW2⟩ := ih _ _ _ a (b - 1) _ _ _ _ heq hsL
            (valid_node_right i l hv) (by omega) (by omega) (by omega) (by omega)
          have hW1com : ∀ x, ¬ anc i x → s'.tree x = s.tree x := by
            intro x hx
            exact hW1 x (fun h => hx (anc_trans i (right_child_index i) x
              (anc_right i) h))
          refine ⟨hW1com, anc_trans i (right_child_index i) j (anc_right i)
            hancj, ?_, ?_⟩
          · intro a2 h1 h2 h3
            by_cases hra : anc (right_child_index i) a2
            · exact hW3 a2 h1 h2 hra
            · by_cases hai : a2 = i
              · rw [hai, hW1 i (not_anc_right_self i)]
                exact hstat
              · rcases anc_step i a2 h3 hai with hL | hR
                · exact absurd (anc_trans _ _ _ hL h1)
                    (fun hc => anc_children_disjoint i j hc hancj)
                · exact absurd hR hra
          · intro x hx hpath
            by_cases hxr : anc (right_child_index i) x
            · obtain ⟨hpres, hcond, hne⟩ := hW2 x hx
                (fun a2 u1 u2 u3 => hpath a2 u1 u2
                  (anc_trans i (right_child_index i) a2 (anc_right i) u3))
              refine ⟨hpres, ?_, hne⟩
              intro a2 ha1 ha2 ha3
              by_cases hra : anc (right_child_index i) a2
              · exact hcond a2 ha1 ha2 hra
              · by_cases hai : a2 = i
                · rw [hai, hW1 i (not_anc_right_self i)]
                  exact hstat
                · rcases anc_step i a2 ha3 hai with hL | hR
                  · exact absurd (anc_trans _ _ _ hL ha1)
                      (fun hc => anc_children_disjoint i x hc hxr)
                  · exact absurd hR hra
            · by_cases hxi : anc i x
              · by_cases hxe : x = i
                · subst hxe
                  rw [hstat] at hx
                  rcases hx with h | h <;> simp at h
                · rcases anc_step i x hxi hxe with hL | hR
                  · refine ⟨hW1 x hxr, ?_, ?_⟩
                    · intro a2 ha1 ha2 ha3
                      by_cases hra : anc (right_child_index i) a2
                      · exact absurd (anc_trans _ _ _ hra ha1) hxr
                      · by_cases hai : a2 = i
                        · rw [hai, hW1 i (not_anc_right_self i)]
                          exact hstat
                        · rcases anc_step i a2 ha3 hai with hL2 | hR2
                          · rw [hW1 a2 hra]
                            exact hpath a2 ha1 ha2 ha3
                          · exact absurd hR2 hra
                    · intro h
                      exact hxr (h ▸ hancj)
                  · exact absurd hR hxr
              · refine ⟨hW1 x hxr, ?_, ?_⟩
                · intro a2 ha1 ha2 ha3
                  exact absurd (anc_trans _ _ _ ha3 ha1) hxi
                · intro h
                  exact hxi (h ▸ anc_trans i (right_child_index i) j
                    (anc_right i) hancj)

/-! ## What `combine` does to the tree -/

theorem parent_lt (n : Nat) (hn : 1 ≤ n) : parent_index n < n := by
  unfold parent_index
  omega

theorem mark_parents_fields : ∀ (fuel : Nat) (s : allocator) (n : Nat),
    (mark_parents fuel s n).max_level = s.max_level ∧
    (mark_parents fuel s n).data = s.data ∧
    (mark_parents fuel s n).used_size = s.used_size := by
  intro fuel
  induction fuel with
  | zero => intro s n; exact ⟨rfl, rfl, rfl⟩
  | succ fuel ih =>
    intro s n
    simp only [mark_parents]
    split
    · exact ⟨rfl, rfl, rfl⟩
    · exact ih _ _

/-- `mark_parents` mutates only the strict ancestors of its argument. -/
theorem mark_parents_frame : ∀ (fuel : Nat) (s : allocator) (n x : Nat),
    ¬ (anc x n ∧ x ≠ n) → (mark_parents fuel s n).tree x = s.tree x := by
  intro fuel
  induction fuel with
  | zero => intro s n x _; rfl
  | succ fuel ih =>
    intro s n x hx
    simp only [mark_parents]
    split
    · rfl
    · rename_i hn0
      have hn : 1 ≤ n := by omega
      have hxp : ¬ (anc x (parent_index n) ∧ x ≠ parent_index n) := by
        rintro ⟨h1, h2⟩
        exact hx ⟨anc_trans x (parent_index n) n h1 (anc_parent n hn),
          fun h => by
            have := anc_le x (parent_index n) h1
            have := parent_lt n hn
            omega⟩
      rw [ih _ _ _ hxp]
      have hxP : x ≠ parent_index n := by
        intro h
        exact hx ⟨h ▸ anc_parent n hn, by
          have := parent_lt n hn
          omega⟩
      exact set_tree_ne _ _ _ _ hxP

/-- `mark_parents` sets every strict ancestor of its argument to
`splited` (given enough fuel, which `combine` always passes). -/
theorem mark_parents_sets : ∀ (fuel : Nat) (n : Nat) (s : allocator) (x : Nat),
    n < fuel → anc x n → x ≠ n → (mark_parents fuel s n).tree x
      = node_status.splited := by
  intro fuel
  induction fuel with
  | zero => intro n s x h _ _; omega
  | succ fuel ih =>
    intro n s x hfn hax hxn
    simp only [mark_parents]
    split
    · rename_i hn0
      subst hn0
      have := anc_le x 0 hax
      omega
    · rename_i hn0
      have hn : 1 ≤ n := by omega
      have hxP : anc x (parent_index n) :=
        anc_through_parent x n hn hax hxn
      by_cases hxp : x = parent_index n
      · rw [hxp, mark_parents_frame fuel _ _ (parent_index n)
          (fun h => h.2 rfl), set_tree_self]
      · exact ih (parent_index n) _ x (by
          have := parent_lt n hn
          omega) hxP hxp

theorem sibling_index_even (n : Nat) (h : n % 2 = 0) : sibling_index n = n := by
  unfold sibling_index
  rw [Nat.and_one_is_mod, h]
  omega

theorem sibling_index_odd (n : Nat) (h : n % 2 = 1) :
    sibling_index n = n + 1 := by
  unfold sibling_index
  rw [Nat.and_one_is_mod, h]

theorem odd_is_left_child (n : Nat) (h : n % 2 = 1) :
    n = left_child_index (parent_index n) ∧
    n + 1 = right_child_index (parent_index n) := by
  unfold left_child_index right_child_index parent_index
  omega

/-- the upward walk of `combine`, started at a used node `j` whose
strict ancestors are all `splited`, stops at an ancestor of `j` whose
subtree contains no node of a family `bad` of used nodes disjoint from
`j`'s subtree (`bad` will be the other live entries). -/
theorem combine_up_spec (t : Nat → node_status) (j : Nat)
    (bad : Nat → Prop)
    (hj : t j = node_status.used ∨ t j = node_status.used_with_alignment)
    (hancj : ∀ a2, anc a2 j → a2 ≠ j → t a2 = node_status.splited)
    (hbad : ∀ x, bad x → (t x = node_status.used ∨
      t x = node_status.used_with_alignment) ∧
      (∀ a2, anc a2 x → a2 ≠ x → t a2 = node_status.splited)) :
    ∀ (fuel n : Nat), anc n j → (∀ x, bad x → ¬ anc n x) →
      anc (combine_up t fuel n) j ∧
      (∀ x, bad x → ¬ anc (combine_up t fuel n) x) := by
  intro fuel
  induction fuel with
  | zero => intro n h1 h2; exact ⟨h1, h2⟩
  | succ fuel ih =>
    intro n h1 h2
    simp only [combine_up]
    split
    · exact ⟨h1, h2⟩
    · split
      · exact ⟨h1, h2⟩
      · rename_i hn0 hsib
        have hsib' : t (sibling_index n) = node_status.unused := not_not.mp hsib
        have hodd : n % 2 = 1 := by
          by_contra hodd
          have h0 : n % 2 = 0 := by omega
          rw [sibling_index_even n h0] at hsib'
          by_cases hnj : n = j
          · rcases hj with h | h <;> (rw [hnj, h] at hsib'; simp at hsib')
          · have := hancj n h1 hnj
            rw [this] at hsib'
            simp at hsib'
        have hn1 : 1 ≤ n := by omega
        obtain ⟨hleft, hright⟩ := odd_is_left_child n hodd
        have hPj : anc (parent_index n) j :=
          anc_trans _ _ _ (anc_parent n hn1) h1
        have hPn_lt := parent_lt n hn1
        have hPne : parent_index n ≠ j := by
          have := anc_le n j h1
          omega
        have hPbad : ∀ x, bad x → ¬ anc (parent_index n) x := by
          intro x hbx hPx
          by_cases hxP : x = parent_index n
          · have hsplit := hancj (parent_index n) hPj hPne
            rcases (hbad x hbx).1 with h | h <;>
              (rw [hxP, hsplit] at h; simp at h)
          · rcases anc_step (parent_index n) x hPx hxP with hL | hR
            · rw [← hleft] at hL
              exact h2 x hbx hL
            · rw [← hright] at hR
              rw [sibling_index_odd n hodd] at hsib'
              by_cases hx1 : x = n + 1
              · rcases (hbad x hbx).1 with h | h <;>
                  (rw [hx1, hsib'] at h; simp at h)
              · have := (hbad x hbx).2 (n + 1) hR (fun h => hx1 h.symm)
                rw [hsib'] at this
                simp at this
        exact ih (parent_index n) hPj hPbad

theorem combine_fields (s : allocator) (j : Nat) :
    (s.combine j).max_level = s.max_level ∧ (s.combine j).data = s.data ∧
    (s.combine j).used_size = s.used_size := by
  unfold allocator.combine
  exact mark_parents_fields _ _ _

/-- freeing one live block through `combine` leaves every other live
block's status untouched and keeps its strict ancestors `splited`. -/
theorem combine_preserves (s : allocator) (j : Nat) (bad : Nat → Prop)
    (hj : s.tree j = node_status.used ∨
      s.tree j = node_status.used_with_alignment)
    (hancj : ∀ a2, anc a2 j → a2 ≠ j → s.tree a2 = node_status.splited)
    (hbad : ∀ x, bad x → (s.tree x = node_status.used ∨
      s.tree x = node_status.used_with_alignment) ∧
      (∀ a2, anc a2 x → a2 ≠ x → s.tree a2 = node_status.splited))
    (hbadj : ∀ x, bad x → ¬ anc x j ∧ ¬ anc j x) :
    ∀ x, bad x → (s.combine j).tree x = s.tree x ∧
      (∀ a2, anc a2 x → a2 ≠ x →
        (s.combine j).tree a2 = node_status.splited) := by
  intro x hbx
  unfold allocator.combine
  set m := combine_up s.tree (j + 1) j with hm
  obtain ⟨hmj, hmbad⟩ := combine_up_spec s.tree j bad hj hancj hbad (j + 1) j
    (anc_refl j) (fun y hy => (hbadj y hy).2)
  rw [← hm] at hmj hmbad
  constructor
  · have hframe : ¬ (anc x m ∧ x ≠ m) := by
      rintro ⟨h1, h2⟩
      exact (hbadj x hbx).1 (anc_trans x m j h1 hmj)
    rw [mark_parents_frame _ _ _ x hframe]
    exact set_tree_ne _ _ _ _ (fun h => hmbad x hbx (h ▸ anc_refl m))
  · intro a2 ha1 ha2
    by_cases hstrict : anc a2 m ∧ a2 ≠ m
    · exact mark_parents_sets (m + 1) m _ a2 (by omega) hstrict.1 hstrict.2
    · rw [mark_parents_frame _ _ _ a2 hstrict]
      have ha2m : a2 ≠ m := by
        intro h
        exact hmbad x hbx (h ▸ ha1)
      rw [set_tree_ne _ _ _ _ ha2m]
      exact (hbad x hbx).2 a2 ha1 ha2

/-- the descent of `allocator::free`, started at an ancestor `i` of a
live node `j` whose strict ancestors are all `splited`, with an offset
inside `j`'s range that respects `j`'s tag, reaches `j`, succeeds, and
returns the combined state. -/
theorem free_walk_reaches (s : allocator) (offset j lj : Nat)
    (hvj : valid_node j lj) (hlj : lj ≤ s.max_level)
    (hst : s.tree j = node_status.used ∨
      s.tree j = node_status.used_with_alignment)
    (hancj : ∀ a2, anc a2 j → a2 ≠ j → s.tree a2 = node_status.splited)
    (hoff1 : _index_offset j lj s.max_level ≤ offset)
    (hoff2 : offset < _index_offset j lj s.max_level + 2 ^ (s.max_level - lj))
    (htag1 : s.tree j = node_status.used →
      offset = _index_offset j lj s.max_level)
    (htag2 : s.tree j = node_status.used_with_alignment →
      offset ≠ _index_offset j lj s.max_level) :
    ∀ (delta fuel i l : Nat), l + delta = lj →
      (j + 1) / 2 ^ delta = i + 1 → delta < fuel →
      free_walk offset fuel s (_index_offset i l s.max_level)
        (2 ^ (s.max_level - l)) i l
      = (true, allocator.combine
          { s with used_size := s.used_size
              - (1 <<< (s.max_level - lj)) } j) := by
  intro delta
  induction delta with
  | zero =>
    intro fuel i l hdl hq hf
    simp at hq
    have hij : i = j := by omega
    have hllj : l = lj := by omega
    obtain ⟨f2, rfl⟩ : ∃ f2, fuel = f2 + 1 := ⟨fuel - 1, by omega⟩
    rw [hij, hllj]
    simp only [free_walk]
    rw [if_neg (by omega : ¬ s.max_level < lj)]
    rcases hst with hu | hu
    · rw [hu]
      simp [htag1 hu]
    · rw [hu]
      simp [htag2 hu]
  | succ delta ih =>
    intro fuel i l hdl hq hf
    obtain ⟨f2, rfl⟩ : ∃ f2, fuel = f2 + 1 := ⟨fuel - 1, by omega⟩
    have hy : (j + 1) / 2 ^ delta / 2 = i + 1 := by
      rw [Nat.div_div_eq_div_mul, ← Nat.pow_succ]
      exact hq
    have hyb : 2 * (i + 1) ≤ (j + 1) / 2 ^ delta ∧
        (j + 1) / 2 ^ delta < 2 * (i + 1) + 2 := by omega
    have hllj : l < lj := by omega
    have hlL : l < s.max_level := by omega
    have hij : i ≠ j := by
      have h1 : (j + 1) / 2 ^ (delta + 1) ≤ (j + 1) / 2 :=
        Nat.div_le_div_left
          (by calc (2 : Nat) = 2 ^ 1 := by norm_num
              _ ≤ 2 ^ (delta + 1) := Nat.pow_le_pow_right (by omega) (by omega))
          (by omega)
      intro h
      rw [h] at hq
      omega
    have hspl : s.tree i = node_status.splited :=
      hancj i ⟨delta + 1, hq⟩ hij
    simp only [free_walk]
    rw [if_neg (by omega : ¬ s.max_level < l), hspl]
    rw [two_pow_div_two (s.max_level - l) (by omega),
      show s.max_level - l - 1 = s.max_level - (l + 1) by omega]
    rcases Nat.lt_or_ge ((j + 1) / 2 ^ delta) (2 * i + 3) with hc | hc
    · have hb : (j + 1) / 2 ^ delta = left_child_index i + 1 := by
        unfold left_child_index
        omega
      obtain ⟨hvb, hn1, hn2⟩ := anc_offset_nest s.max_level delta j lj
        (left_child_index i) (l + 1) hvj hlj (by omega) hb
      obtain ⟨hvi, -, -⟩ := anc_offset_nest s.max_level (delta + 1) j lj i l
        hvj hlj (by omega) hq
      have holeft := _index_offset_left i l s.max_level hvi.1 hlL
      rw [holeft] at hn1 hn2
      have hcmp : offset < _index_offset i l s.max_level
          + 2 ^ (s.max_level - (l + 1)) := by omega
      rw [if_pos hcmp]
      have hrec := ih f2 (left_child_index i) (l + 1) (by omega) hb (by omega)
      rw [holeft] at hrec
      exact hrec
    · have hb : (j + 1) / 2 ^ delta = right_child_index i + 1 := by
        unfold right_child_index
        omega
      obtain ⟨hvb, hn1, hn2⟩ := anc_offset_nest s.max_level delta j lj
        (right_child_index i) (l + 1) hvj hlj (by omega) hb
      obtain ⟨hvi, -, -⟩ := anc_offset_nest s.max_level (delta + 1) j lj i l
        hvj hlj (by omega) hq
      have horight := _index_offset_right i l s.max_level hvi.1 hlL
      rw [horight] at hn1 hn2
      have hcmp : ¬ (offset < _index_offset i l s.max_level
          + 2 ^ (s.max_level - (l + 1))) := by omega
      rw [if_neg hcmp]
      have hrec := ih f2 (right_child_index i) (l + 1) (by omega) hb (by omega)
      rw [horight] at hrec
      exact hrec

/-! ## Live allocations and the round-trip invariant (Claim C4) -/

/-- a successful `alloc_core` extends the live set by the claimed node
and preserves the invariant. -/
theorem alloc_step_entries (s : allocator) (E : List (Nat × Nat × Nat))
    (size al : Nat) (hsz : size ≤ 2 ^ 31) (hal1 : 1 ≤ al) (hal2 : al ≤ 2 ^ 31)
    (p j lj : Nat) (s' : allocator)
    (h : s.alloc_core size al = (some (p, j, lj), s'))
    (hE : entries_ok s E) :
    entries_ok s' ((j, lj, p) :: E) ∧ s'.data = s.data ∧
    s'.max_level = s.max_level := by
  obtain ⟨hw, hg1, hg2⟩ := alloc_core_success_walk s size al p j lj s' h
  obtain ⟨k, hk32, hknp, hkal, hksz⟩ := rounded_size_spec size al hsz hal2
  rw [hknp] at hw hg2
  rw [Nat.shiftLeft_eq, Nat.one_mul] at hw hg2
  have hkL : k ≤ s.max_level := (Nat.pow_le_pow_iff_right (by omega)).mp hg2
  obtain ⟨rest, hFO, hmin, hvj, -, hljle, hka⟩ :=
    (alloc_walk_head_min al s.max_level (s.max_level + 2) s 0 0 k
      s.max_level _ _ hw rfl (by unfold valid_node; omega) (by omega)
      (by omega) hkL (by omega)).2 p j lj rfl
  obtain ⟨hW1, hancj0, hW3, hW2⟩ := alloc_walk_preserve al s.max_level
    (s.max_level + 2) s 0 0 k s.max_level p j lj s' hw rfl
    (by unfold valid_node; omega) (by omega) (by omega) hkL (by omega)
  have hfields := alloc_walk_fields (2 ^ k) al (s.max_level + 2) s 0 0
    (2 ^ s.max_level) _ _ hw
  have hdata : s'.data = s.data := hfields.1
  have hmax : s'.max_level = s.max_level := hfields.2.1
  have hused : s'.used_size = s.used_size + 2 ^ k := by
    have := hfields.2.2
    simpa using this
  have hspec := alloc_walk_claim_spec (2 ^ k) al (s.max_level + 2) s 0 0
    (2 ^ s.max_level) p j lj s' hw
  have hancj : ∀ a2, anc a2 j → a2 ≠ j → s'.tree a2 = node_status.splited :=
    fun a2 h1 h2 => hW3 a2 h1 h2 (anc_root a2)
  have hjstat : (s'.tree j = node_status.used ∧
      p = s.data + _index_offset j lj s.max_level) ∨
      (s'.tree j = node_status.used_with_alignment ∧
        s.data + _index_offset j lj s.max_level < p ∧
        p < s.data + _index_offset j lj s.max_level
          + 2 ^ (s.max_level - lj)) := by
    by_cases hc : al > 1 ∧ (s.data + _index_offset j lj s.max_level) % al ≠ 0
    · obtain ⟨ht, hp⟩ := hspec.1 hc
      right
      refine ⟨ht, ?_, ?_⟩
      · have hr : (s.data + _index_offset j lj s.max_level) % al < al :=
          Nat.mod_lt _ (by omega)
        omega
      · have hr : (s.data + _index_offset j lj s.max_level) % al < al :=
          Nat.mod_lt _ (by omega)
        have h2k : al ≤ 2 ^ (s.max_level - lj) := by rw [← hka]; exact hkal
        omega
    · obtain ⟨ht, hp⟩ := hspec.2 hc
      exact Or.inl ⟨ht, hp⟩
  have hpresE : ∀ e ∈ E, s'.tree e.1 = s.tree e.1 ∧
      (∀ a2, anc a2 e.1 → a2 ≠ e.1 → s'.tree a2 = node_status.splited) ∧
      e.1 ≠ j := by
    intro e he
    obtain ⟨hv, hle, hst, hanc⟩ := hE.1 e he
    have hstat : s.tree e.1 = node_status.used ∨
        s.tree e.1 = node_status.used_with_alignment := by
      rcases hst with ⟨h1, -⟩ | ⟨h1, -⟩
      · exact Or.inl h1
      · exact Or.inr h1
    have h2 := hW2 e.1 hstat (fun a2 u1 u2 _ => hanc a2 u1 u2)
    exact ⟨h2.1, fun a2 u1 u2 => h2.2.1 a2 u1 u2 (anc_root a2), h2.2.2⟩
  refine ⟨⟨?_, ?_, ?_⟩, hdata, hmax⟩
  · intro e he
    rcases List.mem_cons.mp he with heq | he'
    · subst heq
      refine ⟨hvj, by rw [hmax]; exact hljle, ?_, hancj⟩
      show (s'.tree j = node_status.used ∧
          p = s'.data + _index_offset j lj s'.max_level) ∨
        (s'.tree j = node_status.used_with_alignment ∧
          s'.data + _index_offset j lj s'.max_level < p ∧
          p < s'.data + _index_offset j lj s'.max_level
            + 2 ^ (s'.max_level - lj))
      rw [hdata, hmax]
      exact hjstat
    · obtain ⟨hv, hle, hst, hanc⟩ := hE.1 e he'
      obtain ⟨hpres, hanc', hne⟩ := hpresE e he'
      refine ⟨hv, by rw [hmax]; exact hle, ?_, fun a2 u1 u2 => hanc' a2 u1 u2⟩
      show (s'.tree e.1 = node_status.used ∧
          e.2.2 = s'.data + _index_offset e.1 e.2.1 s'.max_level) ∨
        (s'.tree e.1 = node_status.used_with_alignment ∧
          s'.data + _index_offset e.1 e.2.1 s'.max_level < e.2.2 ∧
          e.2.2 < s'.data + _index_offset e.1 e.2.1 s'.max_level
            + 2 ^ (s'.max_level - e.2.1))
      rw [hdata, hmax, hpres]
      exact hst
  · rw [List.pairwise_cons]
    refine ⟨?_, hE.2.1⟩
    intro e' he
    obtain ⟨hv, hle, hst, hanc⟩ := hE.1 e' he
    obtain ⟨hpres', hanc'', hne''⟩ := hpresE e' he
    constructor
    · intro hja
      have hsp := hanc'' j hja (fun h => hne'' h.symm)
      rcases hjstat with ⟨h1, -⟩ | ⟨h1, -, -⟩ <;> (rw [h1] at hsp; simp at hsp)
    · intro hea
      have hsp := hancj e'.1 hea hne''
      rw [hpres'] at hsp
      rcases hst with ⟨h1, -⟩ | ⟨h1, -⟩ <;> (rw [h1] at hsp; simp at hsp)
  · simp only [List.map_cons, List.sum_cons, hused, hmax]
    rw [hE.2.2, ← hka]
    omega

/-- freeing the pointer of a live entry succeeds and removes exactly
that entry, preserving the invariant for the remaining ones. -/
theorem free_step_entries (s : allocator) (E1 E2 : List (Nat × Nat × Nat))
    (e : Nat × Nat × Nat) (hE : entries_ok s (E1 ++ e :: E2))
    (hdata1 : 1 ≤ s.data) :
    (s.free e.2.2).1 = true ∧
    entries_ok (s.free e.2.2).2 (E1 ++ E2) ∧
    (s.free e.2.2).2.data = s.data ∧
    (s.free e.2.2).2.max_level = s.max_level ∧
    (s.free e.2.2).2.used_size
      = s.used_size - 2 ^ (s.max_level - e.2.1) := by
  have he : e ∈ E1 ++ e :: E2 := by simp
  obtain ⟨hv, hle, hst, hanc⟩ := hE.1 e he
  have hstat : s.tree e.1 = node_status.used ∨
      s.tree e.1 = node_status.used_with_alignment := by
    rcases hst with ⟨h1, -⟩ | ⟨h1, -⟩
    · exact Or.inl h1
    · exact Or.inr h1
  have h2pos : (1 : Nat) ≤ 2 ^ (s.max_level - e.2.1) := Nat.one_le_two_pow
  have hb1 : s.data + _index_offset e.1 e.2.1 s.max_level ≤ e.2.2 ∧
      e.2.2 < s.data + _index_offset e.1 e.2.1 s.max_level
        + 2 ^ (s.max_level - e.2.1) := by
    rcases hst with ⟨-, h2⟩ | ⟨-, h2, h3⟩
    · omega
    · omega
  have hp0 : ¬ (e.2.2 = 0) := by omega
  have hrange := _index_offset_range e.1 e.2.1 s.max_level hv hle
  have hin : s.in_buddy e.2.2 = true := by
    have hsh : (1 : Nat) <<< s.max_level = 2 ^ s.max_level := by
      rw [Nat.shiftLeft_eq, Nat.one_mul]
    simp only [allocator.in_buddy, hsh, Bool.and_eq_true, decide_eq_true_eq]
    omega
  have htag1 : s.tree e.1 = node_status.used →
      e.2.2 - s.data = _index_offset e.1 e.2.1 s.max_level := by
    intro h
    rcases hst with ⟨-, h2⟩ | ⟨h1, -, -⟩
    · omega
    · rw [h1] at h
      simp at h
  have htag2 : s.tree e.1 = node_status.used_with_alignment →
      e.2.2 - s.data ≠ _index_offset e.1 e.2.1 s.max_level := by
    intro h
    rcases hst with ⟨h1, -⟩ | ⟨-, h2, -⟩
    · rw [h1] at h
      simp at h
    · omega
  have hdiv : (e.1 + 1) / 2 ^ e.2.1 = 0 + 1 := by
    obtain ⟨hv1, hv2⟩ := hv
    have hpos : 0 < 2 ^ e.2.1 := Nat.pos_pow_of_pos _ (by omega)
    have hlo : 1 ≤ (e.1 + 1) / 2 ^ e.2.1 := (Nat.one_le_div_iff hpos).mpr hv1
    have hhi : (e.1 + 1) / 2 ^ e.2.1 < 2 := by
      rw [Nat.div_lt_iff_lt_mul hpos]
      calc e.1 + 1 < 2 ^ (e.2.1 + 1) := hv2
      _ = 2 * 2 ^ e.2.1 := by ring
    omega
  have hreach := free_walk_reaches s (e.2.2 - s.data) e.1 e.2.1 hv hle hstat
    hanc (by omega) (by omega) htag1 htag2 e.2.1 (s.max_level + 2) 0 0
    (by omega) hdiv (by omega)
  have hoff00 : _index_offset 0 0 s.max_level = 0 := by
    rw [_index_offset_eq]
    simp
  rw [hoff00, Nat.sub_zero] at hreach
  have hsh : (1 : Nat) <<< s.max_level = 2 ^ s.max_level := by
    rw [Nat.shiftLeft_eq, Nat.one_mul]
  have hfree : s.free e.2.2 = (true, allocator.combine
      { s with used_size := s.used_size - (1 <<< (s.max_level - e.2.1)) }
      e.1) := by
    simp only [allocator.free]
    rw [if_neg hp0, if_neg (fun h => h hin), hsh]
    exact hreach
  rw [hfree]
  have hcf := combine_fields
    { s with used_size := s.used_size - (1 <<< (s.max_level - e.2.1)) } e.1
  have hsh2 : (1 : Nat) <<< (s.max_level - e.2.1)
      = 2 ^ (s.max_level - e.2.1) := by
    rw [Nat.shiftLeft_eq, Nat.one_mul]
  have hmax2 : (allocator.combine
      { s with used_size := s.used_size - (1 <<< (s.max_level - e.2.1)) }
      e.1).max_level = s.max_level := hcf.1
  have hdata2 : (allocator.combine
      { s with used_size := s.used_size - (1 <<< (s.max_level - e.2.1)) }
      e.1).data = s.data := hcf.2.1
  have hused2 : (allocator.combine
      { s with used_size := s.used_size - (1 <<< (s.max_level - e.2.1)) }
      e.1).used_size = s.used_size - 2 ^ (s.max_level - e.2.1) := by
    rw [hcf.2.2]
    simp [hsh2]
  have hpermE : (E1 ++ e :: E2).Perm (e :: (E1 ++ E2)) := List.perm_middle
  have hsymm : ∀ {x y : Nat × Nat × Nat},
      (¬ anc x.1 y.1 ∧ ¬ anc y.1 x.1) → (¬ anc y.1 x.1 ∧ ¬ anc x.1 y.1) :=
    fun h => ⟨h.2, h.1⟩
  have hpairs := (List.Perm.pairwise_iff hsymm hpermE).mp hE.2.1
  have hhead : ∀ e' ∈ E1 ++ E2,
      ¬ anc e.1 e'.1 ∧ ¬ anc e'.1 e.1 :=
    fun e' he' => List.rel_of_pairwise_cons hpairs he'
  have htail := (List.pairwise_cons.mp hpairs).2
  have hmemE : ∀ e' ∈ E1 ++ E2, e' ∈ E1 ++ e :: E2 :=
    fun e' he' => hpermE.symm.subset (List.mem_cons_of_mem e he')
  have hcp := combine_preserves
    { s with used_size := s.used_size - (1 <<< (s.max_level - e.2.1)) } e.1
    (fun x => ∃ e' ∈ E1 ++ E2, e'.1 = x) hstat hanc
    (by
      rintro x ⟨e', he', rfl⟩
      obtain ⟨hv', hle', hst', hanc'⟩ := hE.1 e' (hmemE e' he')
      refine ⟨?_, hanc'⟩
      rcases hst' with ⟨h1, -⟩ | ⟨h1, -⟩
      · exact Or.inl h1
      · exact Or.inr h1)
    (by
      rintro x ⟨e', he', rfl⟩
      exact ⟨(hhead e' he').2, (hhead e' he').1⟩)
  refine ⟨rfl, ⟨?_, htail, ?_⟩, hdata2, hmax2, hused2⟩
  · intro e' he'
    obtain ⟨hv', hle', hst', hanc'⟩ := hE.1 e' (hmemE e' he')
    obtain ⟨hpres, hanc2⟩ := hcp e'.1 ⟨e', he', rfl⟩
    refine ⟨hv', by rw [hmax2]; exact hle', ?_, hanc2⟩
    show ((allocator.combine _ e.1).tree e'.1 = node_status.used ∧
        e'.2.2 = (allocator.combine _ e.1).data
          + _index_offset e'.1 e'.2.1 (allocator.combine _ e.1).max_level) ∨
      ((allocator.combine _ e.1).tree e'.1
          = node_status.used_with_alignment ∧
        (allocator.combine _ e.1).data
          + _index_offset e'.1 e'.2.1 (allocator.combine _ e.1).max_level
          < e'.2.2 ∧
        e'.2.2 < (allocator.combine _ e.1).data
          + _index_offset e'.1 e'.2.1 (allocator.combine _ e.1).max_level
          + 2 ^ ((allocator.combine _ e.1).max_level - e'.2.1))
    rw [hdata2, hmax2, hpres]
    exact hst'
  · have hsum : s.used_size
        = 2 ^ (s.max_level - e.2.1)
          + ((E1 ++ E2).map (fun e2 => 2 ^ (s.max_level - e2.2.1))).sum := by
      rw [hE.2.2]
      have hmp := (hpermE.map (fun e2 => 2 ^ (s.max_level - e2.2.1))).sum_eq
      rw [hmp, List.map_cons, List.sum_cons]
    rw [hused2, hmax2, hsum]
    omega

/-- a failed `alloc_core` (with the C++ size inflation kept below the
64-bit wrap) leaves the allocator unchanged; failure branch used when
running a list of calls. -/
theorem alloc_core_fail_eq (s : allocator) (size alignment : Nat)
    (hsz : size ≤ 2 ^ 31) (hal : alignment ≤ 2 ^ 31)
    (h : (s.alloc_core size alignment).1 = none) :
    (s.alloc_core size alignment).2 = s := by
  have hmain : ∀ s' : allocator,
      s.alloc_core size alignment = (none, s') → s' = s := by
    intro s' heq
    rw [allocator.alloc_core] at heq
    simp only at heq
    set size1 := if size = 0 then 1 else size with hs1
    have hs1b : 1 ≤ size1 ∧ size1 ≤ 2 ^ 31 := by
      rw [hs1]
      split <;> omega
    set size2 := if alignment > 1 then (size1 + alignment - 1) % size_t_mod
      else size1 with hs2
    have hs2b : 1 ≤ size2 ∧ size2 ≤ 2 ^ 32 := by
      rw [hs2]
      split
      · rw [Nat.mod_eq_of_lt (by unfold size_t_mod; omega)]
        omega
      · omega
    obtain ⟨k, hk32, hknp, hkge⟩ := next_pow_of_2_spec size2 hs2b.1 hs2b.2
    rw [hknp] at heq
    by_cases hg1 : 2 ^ k > UINT32_MAX
    · rw [if_pos hg1] at heq
      cases heq
      rfl
    · rw [if_neg hg1] at heq
      by_cases hg2 : 2 ^ k > 1 <<< s.max_level
      · rw [if_pos hg2] at heq
        cases heq
        rfl
      · rw [if_neg hg2] at heq
        have hkL : k ≤ s.max_level := by
          have h2 : (2 : Nat) ^ k ≤ 2 ^ s.max_level := by
            rw [Nat.shiftLeft_eq, Nat.one_mul] at hg2
            omega
          exact (Nat.pow_le_pow_iff_right (by omega)).mp h2
        rw [Nat.shiftLeft_eq, Nat.one_mul] at heq
        exact alloc_walk_fail_state_eq alignment (s.max_level + 2) s 0 0 k
          s.max_level s' heq hkL (by omega)
  rcases hcore : s.alloc_core size alignment with ⟨o, s2⟩
  rw [hcore] at h
  have ho : o = none := h
  subst ho
  simpa using hmain s2 hcore

/-- running a list of in-range `alloc` calls from an invariant state adds
a matching block of live entries; the collected pointers are exactly the
new entries' pointers. -/
theorem run_allocs_entries (cs : List (Nat × Nat)) :
    ∀ (s : allocator) (E : List (Nat × Nat × Nat)),
      (∀ c ∈ cs, c.1 ≤ 2 ^ 31 ∧ 1 ≤ c.2 ∧ c.2 ≤ 2 ^ 31) →
      entries_ok s E →
      ∃ Eadd : List (Nat × Nat × Nat),
        entries_ok (run_allocs s cs).1 (Eadd ++ E) ∧
        (run_allocs s cs).2.Perm (Eadd.map (fun e => e.2.2)) ∧
        (run_allocs s cs).1.data = s.data := by
  induction cs with
  | nil =>
    intro s E _ hE
    exact ⟨[], by simpa [run_allocs] using hE, by simp [run_allocs], rfl⟩
  | cons c cs ih =>
    intro s E hcs hE
    obtain ⟨hsz, hal1, hal2⟩ := hcs c (by simp)
    have htail : ∀ c2 ∈ cs, c2.1 ≤ 2 ^ 31 ∧ 1 ≤ c2.2 ∧ c2.2 ≤ 2 ^ 31 :=
      fun c2 hc2 => hcs c2 (List.mem_cons_of_mem _ hc2)
    rcases hcore : s.alloc_core c.1 c.2 with ⟨o, s1⟩
    have halloc : s.alloc c.1 c.2 = (o.map (fun q => q.1), s1) := by
      simp [allocator.alloc, hcore]
    rcases o with - | q
    · have hs1 : s1 = s := by
        have h1 : (s.alloc_core c.1 c.2).1 = none := by rw [hcore]
        have h2 := alloc_core_fail_eq s c.1 c.2 hsz hal2 h1
        rw [hcore] at h2
        exact h2
      obtain ⟨Eadd, h1, h2, h3⟩ := ih s E htail hE
      refine ⟨Eadd, ?_, ?_, ?_⟩
      · simp only [run_allocs, halloc, Option.map_none, hs1]
        exact h1
      · simp only [run_allocs, halloc, Option.map_none, hs1]
        exact h2
      · simp only [run_allocs, halloc, Option.map_none, hs1]
        exact h3
    · rcases q with ⟨p, j, lj⟩
      obtain ⟨hE1, hdata1, hmax1⟩ := alloc_step_entries s E c.1 c.2 hsz hal1
        hal2 p j lj s1 hcore hE
      obtain ⟨Eadd, h1, h2, h3⟩ := ih s1 ((j, lj, p) :: E) htail hE1
      refine ⟨Eadd ++ [(j, lj, p)], ?_, ?_, ?_⟩
      · simp only [run_allocs, halloc, Option.map_some]
        rw [List.append_assoc, List.singleton_append]
        exact h1
      · simp only [run_allocs, halloc, Option.map_some]
        rw [List.map_append, List.map_cons, List.map_nil]
        have h4 : (p :: (run_allocs s1 cs).2).Perm
            (p :: Eadd.map (fun e => e.2.2)) := h2.cons p
        exact h4.trans
          ((List.perm_append_singleton p (Eadd.map (fun e => e.2.2))).symm)
      · have h4 : (run_allocs s1 cs).1.data = s.data := by rw [h3, hdata1]
        simp only [run_allocs, halloc]
        exact h4

/-- freeing any permutation of the live entries' pointers succeeds call
by call and ends with `used_size = 0`. -/
theorem run_frees_entries (qs : List Nat) :
    ∀ (s : allocator) (E : List (Nat × Nat × Nat)),
      qs.Perm (E.map (fun e => e.2.2)) → entries_ok s E → 1 ≤ s.data →
      (run_frees s qs).2 = true ∧ (run_frees s qs).1.used_size = 0 := by
  induction qs with
  | nil =>
    intro s E hperm hE hd
    have h1 : E.map (fun e => e.2.2) = [] := List.Perm.eq_nil hperm.symm
    have h2 : E = [] := List.map_eq_nil_iff.mp h1
    subst h2
    refine ⟨rfl, ?_⟩
    have h3 := hE.2.2
    simpa [run_frees] using h3
  | cons q qs ih =>
    intro s E hperm hE hd
    have hqmem : q ∈ E.map (fun e => e.2.2) := hperm.subset (by simp)
    obtain ⟨e, heE, hq⟩ := List.mem_map.mp hqmem
    obtain ⟨E1, E2, hEeq⟩ := List.append_of_mem heE
    subst hEeq
    obtain ⟨hfr, hE2, hdata2, hmax2, hused2⟩ :=
      free_step_entries s E1 E2 e hE hd
    have hperm2 : qs.Perm ((E1 ++ E2).map (fun e2 => e2.2.2)) := by
      have h1 : (E1 ++ e :: E2).map (fun e2 => e2.2.2)
          = E1.map (fun e2 => e2.2.2) ++ q :: E2.map (fun e2 => e2.2.2) := by
        simp [hq]
      rw [h1] at hperm
      have h2 := hperm.trans List.perm_middle
      have h3 := h2.cons_inv
      rw [List.map_append]
      exact h3
    have hrec := ih (s.free e.2.2).2 (E1 ++ E2) hperm2 hE2
      (by rw [hdata2]; exact hd)
    simp only [run_frees]
    rw [← hq]
    exact ⟨by simp [hfr, hrec.1], hrec.2⟩

/-- Claim C4: round-trip.  Starting from a fresh arena, run any sequence
of `alloc(size, alignment)` calls (sizes at most `2^31`, alignments in
`[1, 2^31]`, so the C++ `size_t` inflation stays away from wrap-around),
collect the non-null pointers they return, and then `free` every one of
those pointers in any order: each free returns `true`, and afterwards
`used_size == 0` and `full()` (the source's name for `is_empty`) is
`true`. -/
theorem alloc_free_roundtrip (L base : Nat) (hbase : 1 ≤ base)
    (cs : List (Nat × Nat))
    (hcs : ∀ c ∈ cs, c.1 ≤ 2 ^ 31 ∧ 1 ≤ c.2 ∧ c.2 ≤ 2 ^ 31)
    (qs : List Nat)
    (hqs : qs.Perm (run_allocs (mk_allocator L base) cs).2) :
    (run_frees (run_allocs (mk_allocator L base) cs).1 qs).2 = true ∧
    (run_frees (run_allocs (mk_allocator L base) cs).1 qs).1.used_size = 0 ∧
    (run_frees (run_allocs (mk_allocator L base) cs).1 qs).1.full = true := by
  have hE0 : entries_ok (mk_allocator L base) [] :=
    ⟨fun e he => absurd he (List.not_mem_nil e), List.Pairwise.nil, rfl⟩
  obtain ⟨Eadd, hEok, hpermP, hdata⟩ :=
    run_allocs_entries cs (mk_allocator L base) [] hcs hE0
  rw [List.append_nil] at hEok
  have hperm2 : qs.Perm (Eadd.map (fun e => e.2.2)) := hqs.trans hpermP
  have hmain := run_frees_entries qs (run_allocs (mk_allocator L base) cs).1
    Eadd hperm2 hEok (by rw [hdata]; exact hbase)
  refine ⟨hmain.1, hmain.2, ?_⟩
  simp [allocator.full, hmain.2]

/-- the round-trip theorem at a concrete instance: a level-2 arena at
base address 4, two one-byte allocations (returning 4 and 5), freed in
the reverse order. -/
theorem alloc_free_roundtrip_witness :
    (run_frees (run_allocs (mk_allocator 2 4) [(1, 1), (1, 1)]).1
        [5, 4]).2 = true ∧
    (run_frees (run_allocs (mk_allocator 2 4) [(1, 1), (1, 1)]).1
        [5, 4]).1.used_size = 0 ∧
    (run_frees (run_allocs (mk_allocator 2 4) [(1, 1), (1, 1)]).1
        [5, 4]).1.full = true :=
  alloc_free_roundtrip 2 4 (by decide) [(1, 1), (1, 1)] (by decide)
    [5, 4] (by decide)

/-! ## Claims -/

/-- Claim C1 (code bug): freeing the right child (node 2, pointer 9)
while its buddy (node 1) is `unused` does not merge the two buddies:
the walk's first test reads `sibling_index 2 = 2`, the freed node
itself, whose status is still `used`, so it stops at once.  The claim
says the coalesce walks upward and marks the final node `unused` for
right children as well, which would leave the root `unused`; instead
the root stays `splited`, both children are `unused`, and in that state
a size-2 allocation on the now-empty (`used_size = 0`) arena fails. -/
theorem combine_right_child_does_not_merge :
    ((((mk_allocator 1 8).alloc_core 1 1).2.alloc_core 1 1).2.free 8).2.tree 1
        = node_status.unused ∧
    (((((mk_allocator 1 8).alloc_core 1 1).2.alloc_core 1 1).2.free 8).2.free 9).1
        = true ∧
    combine_trace.tree 0 = node_status.splited ∧
    combine_trace.tree 1 = node_status.unused ∧
    combine_trace.tree 2 = node_status.unused ∧
    combine_trace.used_size = 0 ∧
    (combine_trace.alloc_core 2 1).1 = none := by
  decide

/-- Claim C2 (code bug): the state `combine_trace`, reached from a
freshly constructed arena by the alloc/free sequence recorded in its
definition, has node 0 marked `splited` while both of its (reachable)
children are `unused` — the tree-shape invariant the claim states is
violated by the sibling computation in `allocator::combine`. -/
theorem split_node_with_both_children_unused_reachable :
    combine_trace.tree 0 = node_status.splited ∧
    combine_trace.tree (left_child_index 0) = node_status.unused ∧
    combine_trace.tree (right_child_index 0) = node_status.unused := by
  decide

/-- Claim C3, counterexample: `release_global_pool` destroys the one
arena in the free list but `alloced_block_num` stays 1, not
`1 - 1 = 0` as the claim's decrement would give. -/
theorem clear_does_not_decrement_alloced_block_num :
    ¬ ((release_global_pool clear_cex_pool).alloced_block_num
        = clear_cex_pool.alloced_block_num - clear_cex_pool.pool.length) := by
  decide

/-- Claim C3, amended: clearing the global reservoir destroys all arenas
in the free list but leaves `alloced_block_num` unchanged, so afterwards
the counter still includes the destroyed arenas. -/
theorem clear_empties_pool_and_keeps_alloced_block_num
    (g : global_pool_type) :
    (release_global_pool g).pool = [] ∧
    (release_global_pool g).alloced_block_num = g.alloced_block_num :=
  ⟨rfl, rfl⟩

/-- Claim C7, counterexample: `allocator::free` on a null pointer returns
`true` (the source's lines 217-219), not `false` as the claim states. -/
theorem free_null_returns_true_cex :
    ¬ (((mk_allocator 3 8).free 0).1 = false) := by
  decide

/-- Claim C7, amended: `free(ptr)` returns `true` and has no effect when
`ptr` is null, and returns `false` and has no effect when `ptr` lies
outside `[data, data + 2^max_level)`. -/
theorem free_null_and_out_of_range (s : allocator) (p : Nat) :
    s.free 0 = (true, s) ∧
    (p ≠ 0 → s.in_buddy p = false → s.free p = (false, s)) := by
  refine ⟨rfl, fun hp hb => ?_⟩
  simp [allocator.free, hp, hb]

theorem free_null_and_out_of_range_witness :
    (999 ≠ 0) ∧ ((mk_allocator 3 8).in_buddy 999 = false) ∧
    ((mk_allocator 3 8).free 999 = (false, mk_allocator 3 8)) :=
  ⟨by decide, by decide,
    (free_null_and_out_of_range (mk_allocator 3 8) 999).2 (by decide) (by decide)⟩

/-- helper for Claim C8: a reservoir whose charge count is within the cap
keeps it within the cap across any sequence of operations
(`get_block` increments the count only after checking it is below
`2^(max_level - buddy_block_level)`; `add_block` and `clear` never
change it). -/
theorem run_events_alloced_le (max_level : Nat) (es : List pool_event) :
    ∀ g : global_pool_type,
      g.alloced_block_num ≤ 1 <<< (max_level - buddy_block_level) →
      (run_events max_level es g).alloced_block_num
        ≤ 1 <<< (max_level - buddy_block_level) := by
  induction es with
  | nil => intro g hg; exact hg
  | cons e es ih =>
    intro g hg
    cases e with
    | get nb =>
      obtain ⟨p, n⟩ := g
      cases p with
      | nil =>
        by_cases hc : n ≥ 1 <<< (max_level - buddy_block_level)
        · simpa [run_events, pool_get_block, hc] using ih ⟨[], n⟩ hg
        · simpa [run_events, pool_get_block, hc] using
            ih ⟨[], n + 1⟩ (Nat.lt_of_not_le (fun h => hc h))
      | cons b rest =>
        simpa [run_events, pool_get_block] using ih ⟨rest, n⟩ hg
    | put b =>
      simpa [run_events, global_pool_type.add_block] using
        ih ⟨g.pool ++ [b], g.alloced_block_num⟩ hg
    | clear =>
      simpa [run_events, global_pool_type.clear] using
        ih ⟨[], g.alloced_block_num⟩ hg

/-- Claim C8: over any execution (any sequence of reservoir operations,
starting from the zero-initialized reservoir, at a fixed configured
exponent), the number of arenas charged to the location never exceeds
`2^(max_level - buddy_block_level)`; the reservoir constructs and
charges a new arena only below that cap. -/
theorem alloced_block_num_le_cap (max_level : Nat) (es : List pool_event) :
    (run_events max_level es ⟨[], 0⟩).alloced_block_num
      ≤ 1 <<< (max_level - buddy_block_level) :=
  run_events_alloced_le max_level es ⟨[], 0⟩ (Nat.zero_le _)

/-- Claim C10: `pool::free(nullptr)` returns `true` exactly when the
local arena list is non-empty (the first arena's `free` treats null as
success), and a pool holding no arenas returns `false` from `free` for
every pointer, null included. -/
theorem pool_free_null_iff_nonempty (l : List allocator) (p : Nat) :
    (pool_free [] p).1 = false ∧ ((pool_free l 0).1 = true ↔ l ≠ []) := by
  constructor
  · rfl
  · cases l with
    | nil => simp [pool_free]
    | cons a rest => simp [pool_free, allocator.free]

end CudaBuddy
